import Mathlib

/-!
Shallow embedding of the sealed-bid auction contract
(`src/contract.rs`, `src/msg.rs`, `src/state.rs`).

Addresses (`HumanAddr` / `CanonicalAddr`) are abstracted as `Nat`; the two
token contracts are identified by an `Asset` tag on transfer requests.
Token amounts (`Uint128` / `u128`) and timestamps (`u64`) are modelled as
`Nat`; none of the verified properties concern machine-integer overflow.
The bid ledger (keyed storage of `Bid` records) is an association list,
the `HashSet<Vec<u8>>` of bidders is a duplicate-free list whose order
models the unspecified hash-set iteration order.
-/

namespace Auction

/-- msg.rs `ResponseStatus`. -/
inductive ResponseStatus
  | Success
  | Failure
deriving DecidableEq

/-- Which of the two token contracts a transfer request is addressed to
(the sale-token contract or the bid-token contract). -/
inductive Asset
  | sale
  | bid
deriving DecidableEq

/-- A requested token transfer (contract.rs `transfer_tokens_msg`):
move `amount` units of `asset` to `recipient`. -/
structure Transfer where
  asset : Asset
  recipient : Nat
  amount : Nat
deriving DecidableEq

/-- state.rs `Bid`. -/
structure Bid where
  amount : Nat
  timestamp : Nat
deriving DecidableEq

/-- state.rs `State`.  The contract-info fields are represented by the
`Asset` tag on transfers; `auction_addr` plays no role in the handlers. -/
structure State where
  seller : Nat
  sell_amount : Nat
  minimum_bid : Nat
  currently_consigned : Nat
  bidders : List Nat
  is_completed : Bool
  tokens_consigned : Bool
  description : Option String
deriving DecidableEq

/-- `may_load` on the keyed bid store. -/
def ledgerGet : List (Nat × Bid) → Nat → Option Bid
  | [], _ => none
  | e :: t, k => if e.1 = k then some e.2 else ledgerGet t k

/-- `remove` on the keyed bid store. -/
def ledgerRemove : List (Nat × Bid) → Nat → List (Nat × Bid)
  | [], _ => []
  | e :: t, k => if e.1 = k then ledgerRemove t k else e :: ledgerRemove t k

/-- `save` on the keyed bid store (overwrite the entry at the key). -/
def ledgerSet (l : List (Nat × Bid)) (k : Nat) (b : Bid) : List (Nat × Bid) :=
  (k, b) :: ledgerRemove l k

/-- `HashSet::insert` on the bidder set. -/
def insertBidder (l : List Nat) (b : Nat) : List Nat :=
  if b ∈ l then l else b :: l

/-- `HashSet::remove` on the bidder set. -/
def removeBidder : List Nat → Nat → List Nat
  | [], _ => []
  | x :: t, b => if x = b then removeBidder t b else x :: removeBidder t b

/-- The durable data owned by the state machine: the config singleton
plus the keyed bid store. -/
structure Env where
  state : State
  ledger : List (Nat × Bid)
deriving DecidableEq

/-- msg.rs `HandleAnswer`, with the JSON serialization abstracted away. -/
inductive Answer
  | consign (status : ResponseStatus) (message : String)
      (amount_consigned amount_needed amount_returned : Option Nat)
  | bid (status : ResponseStatus) (message : String)
      (previous_bid amount_bid amount_returned : Option Nat)
  | closeAuction (status : ResponseStatus) (message : String)
      (winning_bid amount_returned : Option Nat)
  | retractBid (status : ResponseStatus) (message : String)
      (amount_returned : Option Nat)
deriving DecidableEq

/-- The status reported by a handle answer. -/
def Answer.status : Answer → ResponseStatus
  | .consign s _ _ _ _ => s
  | .bid s _ _ _ _ => s
  | .closeAuction s _ _ _ => s
  | .retractBid s _ _ => s

/-- The outcome of one handle call: the new durable data, the ordered
transfer requests, and the structured answer. -/
structure StepResult where
  env : Env
  msgs : List Transfer
  answer : Answer
deriving DecidableEq

def msgConsignNotSeller : String :=
  "Only auction creator can consign tokens for sale.  Your tokens have been returned"

def msgConsignEnded : String :=
  "Auction has ended. Your tokens have been returned"

def msgConsignAlready : String :=
  "Tokens to be sold have already been consigned. Your tokens have been returned"

def msgConsignPartial : String :=
  "You have not consigned the full amount to be sold.  You need to consign additional tokens"

def msgConsignDone : String :=
  "Tokens to be sold have been consigned to the auction"

def msgConsignExcess : String :=
  ".  Excess tokens have been returned"

/-- contract.rs `try_consign`. -/
def tryConsign (env : Env) (owner : Nat) (amount : Nat) : StepResult :=
  let state := env.state
  if owner ≠ state.seller then
    ⟨env, [⟨.sale, owner, amount⟩],
      .consign .Failure msgConsignNotSeller none none (some amount)⟩
  else if state.is_completed then
    ⟨env, [⟨.sale, owner, amount⟩],
      .consign .Failure msgConsignEnded none none (some amount)⟩
  else if state.tokens_consigned then
    ⟨env, [⟨.sale, owner, amount⟩],
      .consign .Failure msgConsignAlready (some state.currently_consigned) none (some amount)⟩
  else
    let consign_total := state.currently_consigned + amount
    if consign_total < state.sell_amount then
      ⟨⟨{ state with currently_consigned := consign_total }, env.ledger⟩, [],
        .consign .Failure msgConsignPartial (some consign_total)
          (some (state.sell_amount - consign_total)) none⟩
    else
      ⟨⟨{ state with tokens_consigned := true, currently_consigned := state.sell_amount },
          env.ledger⟩,
        if state.sell_amount < consign_total then
          [⟨.sale, owner, consign_total - state.sell_amount⟩]
        else [],
        .consign .Success
          (msgConsignDone ++ if state.sell_amount < consign_total then msgConsignExcess else "")
          (some state.sell_amount) none
          (if state.sell_amount < consign_total then
            some (consign_total - state.sell_amount)
          else none)⟩

def msgBidEnded : String :=
  "Auction has ended. Bid tokens have been returned"

def msgBidZero : String :=
  "Bid must be greater than 0"

def msgBidBelowMinimum : String :=
  "Bid was less than minimum allowed.  Bid tokens have been returned"

def msgBidTooLow : String :=
  "New bid less than or equal to previous bid. Newly bid tokens have been returned"

def msgBidAccepted : String :=
  "Bid accepted"

def msgBidAcceptedReturned : String :=
  "Bid accepted. Previously bid tokens have been returned"

/-- contract.rs `try_bid`; `time` is `env.block.time`. -/
def tryBid (env : Env) (bidder : Nat) (amount : Nat) (time : Nat) : StepResult :=
  let state := env.state
  if state.is_completed then
    ⟨env, [⟨.bid, bidder, amount⟩],
      .bid .Failure msgBidEnded none none (some amount)⟩
  else if amount = 0 then
    ⟨env, [], .bid .Failure msgBidZero none none none⟩
  else if amount < state.minimum_bid then
    ⟨env, [⟨.bid, bidder, amount⟩],
      .bid .Failure msgBidBelowMinimum none none (some amount)⟩
  else if bidder ∈ state.bidders then
    match ledgerGet env.ledger bidder with
    | some old_bid =>
      if amount ≤ old_bid.amount then
        ⟨env, [⟨.bid, bidder, amount⟩],
          .bid .Failure msgBidTooLow (some old_bid.amount) none (some amount)⟩
      else
        ⟨⟨state, ledgerSet env.ledger bidder ⟨amount, time⟩⟩,
          [⟨.bid, bidder, old_bid.amount⟩],
          .bid .Success msgBidAcceptedReturned none (some amount) (some old_bid.amount)⟩
    | none =>
      ⟨⟨state, ledgerSet env.ledger bidder ⟨amount, time⟩⟩, [],
        .bid .Success msgBidAccepted none (some amount) none⟩
  else
    ⟨⟨{ state with bidders := insertBidder state.bidders bidder },
        ledgerSet env.ledger bidder ⟨amount, time⟩⟩, [],
      .bid .Success msgBidAccepted none (some amount) none⟩

def msgRetracted : String :=
  "Bid retracted.  Tokens have been returned"

def msgNoActiveBid : String :=
  "No active bid for address"

/-- contract.rs `try_retract`. -/
def tryRetract (env : Env) (bidder : Nat) : StepResult :=
  let state := env.state
  if bidder ∈ state.bidders then
    match ledgerGet env.ledger bidder with
    | some old_bid =>
      ⟨⟨{ state with bidders := removeBidder state.bidders bidder },
          ledgerRemove env.ledger bidder⟩,
        [⟨.bid, bidder, old_bid.amount⟩],
        .retractBid .Success msgRetracted (some old_bid.amount)⟩
    | none => ⟨env, [], .retractBid .Failure msgNoActiveBid none⟩
  else ⟨env, [], .retractBid .Failure msgNoActiveBid none⟩

def msgBidPlaced : String :=
  "Bid placed"

/-- contract.rs `try_view_bid` (read-only; the timestamp rendering in the
message is abstracted away). -/
def tryViewBid (env : Env) (bidder : Nat) : StepResult :=
  let state := env.state
  if bidder ∈ state.bidders then
    match ledgerGet env.ledger bidder with
    | some found_bid =>
      ⟨env, [], .bid .Success msgBidPlaced none (some found_bid.amount) none⟩
    | none => ⟨env, [], .bid .Failure msgNoActiveBid none none none⟩
  else ⟨env, [], .bid .Failure msgNoActiveBid none none none⟩

/-- The `OwnedBid` struct local to contract.rs `try_finalize`. -/
structure OwnedBid where
  bidder : Nat
  bid : Bid
deriving DecidableEq

/-- The bid-loading loop at the start of settlement in `try_finalize`:
collect, in bidder-set iteration order, every bidder that has a record. -/
def loadBids (ledger : List (Nat × Bid)) (bidders : List Nat) : List OwnedBid :=
  bidders.filterMap fun b => (ledgerGet ledger b).map fun bd => ⟨b, bd⟩

/-- The comparator passed to `sort_by` in `try_finalize`
(`amount` ascending, ties by `timestamp` descending); `bidLE a b` holds
when the comparator does not order `a` after `b`. -/
def bidLE (a b : OwnedBid) : Bool :=
  decide (a.bid.amount < b.bid.amount) ||
    (decide (a.bid.amount = b.bid.amount) && decide (b.bid.timestamp ≤ a.bid.timestamp))

/-- The loop over the remaining (losing) bids in `try_finalize`:
refund each bid and delete its record and its bidder-set entry. -/
def refundLosers (ledger : List (Nat × Bid)) (bidders : List Nat) :
    List OwnedBid → List Transfer × List (Nat × Bid) × List Nat
  | [] => ([], ledger, bidders)
  | l :: rest =>
    let r := refundLosers (ledgerRemove ledger l.bidder) (removeBidder bidders l.bidder) rest
    (⟨.bid, l.bidder, l.bid.amount⟩ :: r.1, r.2)

/-- Winner selection in `try_finalize`: when the sale is fully consigned and
the auction not yet completed, sort the loaded bids with the stable merge
sort (Rust `sort_by` is stable) and `pop` the last element as the winner;
otherwise every loaded bid is a loser. -/
def settlePick (env : Env) : List OwnedBid × Option OwnedBid :=
  let bid_list := loadBids env.ledger env.state.bidders
  if env.state.tokens_consigned = true ∧ env.state.is_completed = false then
    ((bid_list.mergeSort bidLE).dropLast, (bid_list.mergeSort bidLE).getLast?)
  else (bid_list, none)

def msgFinalized : String :=
  "Sale finalized.  You have been sent the winning bid tokens"

def msgClosedReturned : String :=
  "Auction closed.  You have been returned the consigned tokens"

def msgNotFullyConsigned : String :=
  " because you did not consign the full sale amount"

def msgNoActiveBids : String :=
  " because there were no active bids"

def msgOutstandingReturned : String :=
  "Outstanding funds have been returned"

def msgClosed : String :=
  "Auction has been closed"

/-- The settlement pass of contract.rs `try_finalize`, after the reject
guards and after winner selection: pay out the winner (if any), refund all
remaining bids, return any leftover consignment to the seller, and latch
`is_completed`. -/
def settleAfterPick (env : Env) (return_all : Bool) (losers : List OwnedBid)
    (owinner : Option OwnedBid) : StepResult :=
  let state := env.state
  let winMsgs : List Transfer :=
    match owinner with
    | some w => [⟨.bid, state.seller, w.bid.amount⟩, ⟨.sale, w.bidder, state.sell_amount⟩]
    | none => []
  let ledger1 :=
    match owinner with
    | some w => ledgerRemove env.ledger w.bidder
    | none => env.ledger
  let bidders1 :=
    match owinner with
    | some w => removeBidder state.bidders w.bidder
    | none => state.bidders
  let cc1 :=
    match owinner with
    | some _ => 0
    | none => state.currently_consigned
  let winning_amount : Option Nat := owinner.map fun w => w.bid.amount
  let lose := refundLosers ledger1 bidders1 losers
  let ccMsgs : List Transfer := if 0 < cc1 then [⟨.sale, state.seller, cc1⟩] else []
  let amount_returned : Option Nat :=
    if 0 < cc1 ∧ return_all = false then some cc1 else none
  let cc2 := if 0 < cc1 then 0 else cc1
  let message :=
    if winning_amount.isSome then msgFinalized
    else if amount_returned.isSome then
      msgClosedReturned ++
        (if state.tokens_consigned = false then msgNotFullyConsigned
         else if state.bidders = [] then msgNoActiveBids
         else "")
    else if return_all = true then msgOutstandingReturned
    else msgClosed
  ⟨⟨{ state with currently_consigned := cc2, bidders := lose.2.2, is_completed := true },
      lose.2.1⟩,
    winMsgs ++ lose.1 ++ ccMsgs,
    .closeAuction .Success message winning_amount amount_returned⟩

/-- The settlement pass of `try_finalize` (everything after the reject
guards). -/
def settle (env : Env) (return_all : Bool) : StepResult :=
  settleAfterPick env return_all (settlePick env).1 (settlePick env).2

def msgReturnAllBeforeEnd : String :=
  "return_all can only be executed after the auction has ended"

def msgOnlyCreator : String :=
  "Only auction creator can finalize the sale"

def msgNoBidsNotClosing : String :=
  "Did not close because there are no active bids"

/-- contract.rs `try_finalize` (`Finalize` is `return_all = false`,
`ReturnAll` is `only_if_bids = false, return_all = true`). -/
def tryFinalize (env : Env) (sender : Nat) (only_if_bids return_all : Bool) : StepResult :=
  let state := env.state
  if return_all = true ∧ state.is_completed = false then
    ⟨env, [], .closeAuction .Failure msgReturnAllBeforeEnd none none⟩
  else if return_all = false ∧ sender ≠ state.seller then
    ⟨env, [], .closeAuction .Failure msgOnlyCreator none none⟩
  else if state.is_completed = false ∧ only_if_bids = true ∧ state.bidders = [] then
    ⟨env, [], .closeAuction .Failure msgNoBidsNotClosing none none⟩
  else settle env return_all

/-- The instruction surface of contract.rs `handle`, as dispatched to the
state machine (`Receive` from the sale token is `consign`, `Receive` from
the bid token is `placeBid`). -/
inductive Op
  | consign (owner amount : Nat)
  | placeBid (bidder amount time : Nat)
  | retractBid (bidder : Nat)
  | finalize (sender : Nat) (only_if_bids : Bool)
  | returnAll (sender : Nat)
  | viewBid (bidder : Nat)
deriving DecidableEq

/-- One handle call dispatched to the state machine. -/
def step (env : Env) : Op → StepResult
  | .consign owner amount => tryConsign env owner amount
  | .placeBid bidder amount time => tryBid env bidder amount time
  | .retractBid bidder => tryRetract env bidder
  | .finalize sender only_if_bids => tryFinalize env sender only_if_bids false
  | .returnAll sender => tryFinalize env sender false true
  | .viewBid bidder => tryViewBid env bidder

/-- Run a sequence of operations, collecting every transfer request in
order. -/
def runOps (env : Env) : List Op → Env × List Transfer
  | [] => (env, [])
  | op :: rest =>
    let r := step env op
    let rr := runOps r.env rest
    (rr.1, r.msgs ++ rr.2)

/-- The state written by contract.rs `init` (which also validates
`sell_amount > 0` and that the two token contracts differ). -/
def initState (seller sell_amount minimum_bid : Nat) (description : Option String) : State :=
  { seller := seller, sell_amount := sell_amount, minimum_bid := minimum_bid,
    currently_consigned := 0, bidders := [], is_completed := false,
    tokens_consigned := false, description := description }

/-- The durable data right after `init`: fresh state, empty bid store. -/
def initEnv (seller sell_amount minimum_bid : Nat) (description : Option String) : Env :=
  ⟨initState seller sell_amount minimum_bid description, []⟩

/-- contract.rs `RESPONSE_BLOCK_SIZE`. -/
def RESPONSE_BLOCK_SIZE : Nat := 256

/-- msg.rs `space_pad`: pad a byte vector with blanks (0x20) at the end to
a length that is a multiple of `block_size`. -/
def space_pad (block_size : Nat) (message : List UInt8) : List UInt8 :=
  let len := message.length
  let surplus := len % block_size
  if surplus = 0 then message
  else message ++ List.replicate (block_size - surplus) 32

/-- msg.rs `pad_log_str`: pad a string with blanks so that it has exactly
`block_size` characters.  The Rust `usize` subtraction
`block_size - response.chars().count()` is well-defined only when the
string has at most `block_size` characters. -/
def pad_log_str (block_size : Nat) (response : String) : String :=
  response ++ String.mk (List.replicate (block_size - response.length) ' ')

/-- Total amount requested for a given asset over a list of transfers. -/
def outSum (a : Asset) : List Transfer → Nat
  | [] => 0
  | t :: rest => (if t.asset = a then t.amount else 0) + outSum a rest

/-- Sale-asset units received by one operation (the amount carried by a
`Receive` from the sale-token contract). -/
def saleInOp : Op → Nat
  | .consign _ amount => amount
  | _ => 0

/-- Bid-asset units received by one operation (the amount carried by a
`Receive` from the bid-token contract). -/
def bidInOp : Op → Nat
  | .placeBid _ amount _ => amount
  | _ => 0

/-- Sale-asset units received over a sequence of operations. -/
def saleIn : List Op → Nat
  | [] => 0
  | op :: rest => saleInOp op + saleIn rest

/-- Bid-asset units received over a sequence of operations. -/
def bidIn : List Op → Nat
  | [] => 0
  | op :: rest => bidInOp op + bidIn rest

/-- Bid-asset units currently escrowed: the sum of the stored bid amounts. -/
def ledgerSum : List (Nat × Bid) → Nat
  | [] => 0
  | e :: t => e.2.amount + ledgerSum t

end Auction
namespace Auction

/-! ### Basic lemmas about the keyed bid store and the bidder set -/

theorem ledgerGet_remove_self (l : List (Nat × Bid)) (k : Nat) :
    ledgerGet (ledgerRemove l k) k = none := by
  induction l with
  | nil => simp [ledgerRemove, ledgerGet]
  | cons e t ih =>
    by_cases he : e.1 = k
    · simpa [ledgerRemove, he] using ih
    · simp [ledgerRemove, he, ledgerGet, ih]

theorem ledgerGet_remove_ne (l : List (Nat × Bid)) {k k' : Nat} (h : k' ≠ k) :
    ledgerGet (ledgerRemove l k) k' = ledgerGet l k' := by
  induction l with
  | nil => simp [ledgerRemove]
  | cons e t ih =>
    by_cases he : e.1 = k
    · have hek' : e.1 ≠ k' := fun hc => h (hc.symm.trans he)
      rw [show ledgerRemove (e :: t) k = ledgerRemove t k by simp [ledgerRemove, he], ih]
      simp [ledgerGet, hek']
    · rw [show ledgerRemove (e :: t) k = e :: ledgerRemove t k by simp [ledgerRemove, he]]
      simp [ledgerGet, ih]

theorem ledgerGet_eq_none_iff (l : List (Nat × Bid)) (k : Nat) :
    ledgerGet l k = none ↔ k ∉ l.map Prod.fst := by
  induction l with
  | nil => simp [ledgerGet]
  | cons e t ih =>
    rw [List.map_cons, List.mem_cons, ledgerGet]
    by_cases he : e.1 = k
    · simp [he]
    · rw [if_neg he, ih]
      constructor
      · rintro h (hc | hc)
        · exact he hc.symm
        · exact h hc
      · exact fun h hc => h (Or.inr hc)

theorem ledgerRemove_of_get_none (l : List (Nat × Bid)) (k : Nat)
    (h : ledgerGet l k = none) : ledgerRemove l k = l := by
  induction l with
  | nil => simp [ledgerRemove]
  | cons e t ih =>
    by_cases he : e.1 = k
    · simp [ledgerGet, he] at h
    · simp only [ledgerGet, he, if_false] at h
      simp [ledgerRemove, he, ih h]

theorem keys_remove_sublist (l : List (Nat × Bid)) (k : Nat) :
    ((ledgerRemove l k).map Prod.fst).Sublist (l.map Prod.fst) := by
  induction l with
  | nil => simp [ledgerRemove]
  | cons e t ih =>
    by_cases he : e.1 = k
    · simp only [ledgerRemove, he, if_true, List.map_cons]
      exact ih.trans (List.sublist_cons_self _ _)
    · simpa [ledgerRemove, he] using ih.cons₂ e.1

theorem nodupKeys_remove (l : List (Nat × Bid)) (k : Nat)
    (h : (l.map Prod.fst).Nodup) : ((ledgerRemove l k).map Prod.fst).Nodup :=
  (keys_remove_sublist l k).nodup h

theorem ledgerSum_remove (l : List (Nat × Bid)) (k : Nat) (b : Bid)
    (hnd : (l.map Prod.fst).Nodup) (h : ledgerGet l k = some b) :
    ledgerSum l = b.amount + ledgerSum (ledgerRemove l k) := by
  induction l with
  | nil => simp [ledgerGet] at h
  | cons e t ih =>
    simp only [List.map_cons, List.nodup_cons] at hnd
    by_cases he : e.1 = k
    · simp only [ledgerGet, he, if_true, Option.some.injEq] at h
      have ht : ledgerGet t k = none := by
        rw [ledgerGet_eq_none_iff]
        exact he ▸ hnd.1
      simp only [ledgerSum, ledgerRemove, he, if_true, ledgerRemove_of_get_none t k ht, h]
    · simp only [ledgerGet, he, if_false] at h
      simp only [ledgerSum, ledgerRemove, he, if_false]
      rw [ih hnd.2 h]
      omega

theorem mem_removeBidder (l : List Nat) (b k : Nat) :
    b ∈ removeBidder l k ↔ b ∈ l ∧ b ≠ k := by
  induction l with
  | nil => simp [removeBidder]
  | cons x t ih =>
    by_cases hx : x = k
    · subst hx
      simp only [removeBidder, if_true, ih, List.mem_cons]
      constructor
      · exact fun ⟨h1, h2⟩ => ⟨Or.inr h1, h2⟩
      · rintro ⟨h1 | h1, h2⟩
        · exact absurd h1 h2
        · exact ⟨h1, h2⟩
    · simp only [removeBidder, hx, if_false, List.mem_cons, ih]
      constructor
      · rintro (h | ⟨h1, h2⟩)
        · exact ⟨Or.inl h, h ▸ hx⟩
        · exact ⟨Or.inr h1, h2⟩
      · rintro ⟨h1 | h1, h2⟩
        · exact Or.inl h1
        · exact Or.inr ⟨h1, h2⟩

theorem removeBidder_sublist (l : List Nat) (k : Nat) :
    (removeBidder l k).Sublist l := by
  induction l with
  | nil => simp [removeBidder]
  | cons x t ih =>
    by_cases hx : x = k
    · simp only [removeBidder, hx, if_true]
      exact ih.trans (List.sublist_cons_self _ _)
    · simpa [removeBidder, hx] using ih.cons₂ x

theorem nodup_removeBidder (l : List Nat) (k : Nat) (h : l.Nodup) :
    (removeBidder l k).Nodup :=
  (removeBidder_sublist l k).nodup h

theorem ledgerGet_set_self (l : List (Nat × Bid)) (k : Nat) (b : Bid) :
    ledgerGet (ledgerSet l k b) k = some b := by
  simp [ledgerSet, ledgerGet]

theorem ledgerGet_set_ne (l : List (Nat × Bid)) {k k' : Nat} (b : Bid) (h : k' ≠ k) :
    ledgerGet (ledgerSet l k b) k' = ledgerGet l k' := by
  have hkk : k ≠ k' := fun hc => h hc.symm
  simp only [ledgerSet, ledgerGet, hkk, if_false]
  exact ledgerGet_remove_ne l h

theorem nodupKeys_set (l : List (Nat × Bid)) (k : Nat) (b : Bid)
    (h : (l.map Prod.fst).Nodup) : ((ledgerSet l k b).map Prod.fst).Nodup := by
  have h1 : k ∉ (ledgerRemove l k).map Prod.fst :=
    (ledgerGet_eq_none_iff (ledgerRemove l k) k).mp (ledgerGet_remove_self l k)
  rw [show ledgerSet l k b = (k, b) :: ledgerRemove l k from rfl, List.map_cons]
  exact List.nodup_cons.mpr ⟨h1, nodupKeys_remove l k h⟩

theorem ledgerSum_set (l : List (Nat × Bid)) (k : Nat) (b old : Bid)
    (hnd : (l.map Prod.fst).Nodup) (h : ledgerGet l k = some old) :
    ledgerSum (ledgerSet l k b) + old.amount = ledgerSum l + b.amount := by
  simp only [ledgerSet, ledgerSum]
  have := ledgerSum_remove l k old hnd h
  omega

theorem ledgerSum_set_fresh (l : List (Nat × Bid)) (k : Nat) (b : Bid)
    (h : ledgerGet l k = none) :
    ledgerSum (ledgerSet l k b) = b.amount + ledgerSum l := by
  simp [ledgerSet, ledgerSum, ledgerRemove_of_get_none l k h]

theorem outSum_append (a : Asset) (l1 l2 : List Transfer) :
    outSum a (l1 ++ l2) = outSum a l1 + outSum a l2 := by
  induction l1 with
  | nil => simp [outSum]
  | cons t rest ih => simp [outSum, ih]; omega

end Auction
namespace Auction

/-! ### Component lemmas for the settlement pass -/

theorem refundLosers_msgs (ledger : List (Nat × Bid)) (bidders : List Nat)
    (rl : List OwnedBid) :
    (refundLosers ledger bidders rl).1 =
      rl.map fun ob => ⟨.bid, ob.bidder, ob.bid.amount⟩ := by
  induction rl generalizing ledger bidders with
  | nil => simp [refundLosers]
  | cons l rest ih => simp [refundLosers, ih]

theorem refundLosers_ledger (ledger : List (Nat × Bid)) (bidders : List Nat)
    (rl : List OwnedBid) :
    (refundLosers ledger bidders rl).2.1 =
      rl.foldl (fun led ob => ledgerRemove led ob.bidder) ledger := by
  induction rl generalizing ledger bidders with
  | nil => simp [refundLosers]
  | cons l rest ih => simp [refundLosers, List.foldl_cons, ih]

theorem refundLosers_bidders (ledger : List (Nat × Bid)) (bidders : List Nat)
    (rl : List OwnedBid) :
    (refundLosers ledger bidders rl).2.2 =
      rl.foldl (fun bs ob => removeBidder bs ob.bidder) bidders := by
  induction rl generalizing ledger bidders with
  | nil => simp [refundLosers]
  | cons l rest ih => simp [refundLosers, List.foldl_cons, ih]

theorem settleAfterPick_tokens (env : Env) (ra : Bool) (losers : List OwnedBid)
    (ow : Option OwnedBid) :
    (settleAfterPick env ra losers ow).env.state.tokens_consigned
      = env.state.tokens_consigned := by
  cases ow <;> simp [settleAfterPick]

theorem settleAfterPick_is_completed (env : Env) (ra : Bool) (losers : List OwnedBid)
    (ow : Option OwnedBid) :
    (settleAfterPick env ra losers ow).env.state.is_completed = true := by
  cases ow <;> simp [settleAfterPick]

theorem settleAfterPick_seller (env : Env) (ra : Bool) (losers : List OwnedBid)
    (ow : Option OwnedBid) :
    (settleAfterPick env ra losers ow).env.state.seller = env.state.seller := by
  cases ow <;> simp [settleAfterPick]

theorem settleAfterPick_sell_amount (env : Env) (ra : Bool) (losers : List OwnedBid)
    (ow : Option OwnedBid) :
    (settleAfterPick env ra losers ow).env.state.sell_amount = env.state.sell_amount := by
  cases ow <;> simp [settleAfterPick]

theorem settleAfterPick_minimum_bid (env : Env) (ra : Bool) (losers : List OwnedBid)
    (ow : Option OwnedBid) :
    (settleAfterPick env ra losers ow).env.state.minimum_bid = env.state.minimum_bid := by
  cases ow <;> simp [settleAfterPick]

theorem settleAfterPick_cc (env : Env) (ra : Bool) (losers : List OwnedBid)
    (ow : Option OwnedBid) :
    (settleAfterPick env ra losers ow).env.state.currently_consigned = 0 := by
  cases ow <;> simp [settleAfterPick]

theorem settleAfterPick_status (env : Env) (ra : Bool) (losers : List OwnedBid)
    (ow : Option OwnedBid) :
    (settleAfterPick env ra losers ow).answer.status = .Success := by
  cases ow <;> simp [settleAfterPick, Answer.status]

theorem settleAfterPick_msgs_none (env : Env) (ra : Bool) (losers : List OwnedBid) :
    (settleAfterPick env ra losers none).msgs =
      (refundLosers env.ledger env.state.bidders losers).1 ++
        (if 0 < env.state.currently_consigned then
          [⟨.sale, env.state.seller, env.state.currently_consigned⟩]
        else []) := by
  simp [settleAfterPick]

theorem settleAfterPick_msgs_some (env : Env) (ra : Bool) (losers : List OwnedBid)
    (w : OwnedBid) :
    (settleAfterPick env ra losers (some w)).msgs =
      ⟨.bid, env.state.seller, w.bid.amount⟩ :: ⟨.sale, w.bidder, env.state.sell_amount⟩ ::
        (refundLosers (ledgerRemove env.ledger w.bidder)
          (removeBidder env.state.bidders w.bidder) losers).1 := by
  simp [settleAfterPick]

theorem settleAfterPick_ledger_none (env : Env) (ra : Bool) (losers : List OwnedBid) :
    (settleAfterPick env ra losers none).env.ledger =
      (refundLosers env.ledger env.state.bidders losers).2.1 := by
  simp [settleAfterPick]

theorem settleAfterPick_ledger_some (env : Env) (ra : Bool) (losers : List OwnedBid)
    (w : OwnedBid) :
    (settleAfterPick env ra losers (some w)).env.ledger =
      (refundLosers (ledgerRemove env.ledger w.bidder)
        (removeBidder env.state.bidders w.bidder) losers).2.1 := by
  simp [settleAfterPick]

theorem settleAfterPick_bidders_none (env : Env) (ra : Bool) (losers : List OwnedBid) :
    (settleAfterPick env ra losers none).env.state.bidders =
      (refundLosers env.ledger env.state.bidders losers).2.2 := by
  simp [settleAfterPick]

theorem settleAfterPick_bidders_some (env : Env) (ra : Bool) (losers : List OwnedBid)
    (w : OwnedBid) :
    (settleAfterPick env ra losers (some w)).env.state.bidders =
      (refundLosers (ledgerRemove env.ledger w.bidder)
        (removeBidder env.state.bidders w.bidder) losers).2.2 := by
  simp [settleAfterPick]

theorem settleAfterPick_answer_some (env : Env) (ra : Bool) (losers : List OwnedBid)
    (w : OwnedBid) :
    (settleAfterPick env ra losers (some w)).answer =
      .closeAuction .Success msgFinalized (some w.bid.amount) none := by
  simp [settleAfterPick]

/-- Every `try_finalize` call either runs the settlement pass or is one of
the three reject branches, which change nothing and report `Failure`. -/
theorem tryFinalize_cases (env : Env) (sender : Nat) (oib ra : Bool) :
    tryFinalize env sender oib ra = settle env ra ∨
    ((tryFinalize env sender oib ra).env = env ∧
      (tryFinalize env sender oib ra).msgs = [] ∧
      (tryFinalize env sender oib ra).answer.status = .Failure) := by
  simp only [tryFinalize]
  split_ifs <;> simp [Answer.status]

theorem settle_status (env : Env) (ra : Bool) :
    (settle env ra).answer.status = .Success := by
  unfold settle
  exact settleAfterPick_status _ _ _ _

/-! ### One-way latches (single step) -/

theorem step_latches (env : Env) (op : Op) :
    (env.state.tokens_consigned = true → (step env op).env.state.tokens_consigned = true) ∧
    (env.state.is_completed = true → (step env op).env.state.is_completed = true) := by
  cases op with
  | consign owner amount =>
    simp only [step, tryConsign]
    split_ifs <;> simp
  | placeBid bidder amount time =>
    simp only [step, tryBid]
    split_ifs <;> try simp
    rcases hget : ledgerGet env.ledger bidder with _ | old <;> simp [hget]
    split_ifs <;> simp
  | retractBid bidder =>
    simp only [step, tryRetract]
    split_ifs <;> try simp
    rcases hget : ledgerGet env.ledger bidder with _ | old <;> simp [hget]
  | finalize sender oib =>
    rcases tryFinalize_cases env sender oib false with h | ⟨h, _, _⟩
    · show _ ∧ _
      rw [show step env (.finalize sender oib) = tryFinalize env sender oib false from rfl, h,
        settle]
      simp [settleAfterPick_tokens, settleAfterPick_is_completed]
    · rw [show step env (.finalize sender oib) = tryFinalize env sender oib false from rfl, h]
      simp
  | returnAll sender =>
    rcases tryFinalize_cases env sender false true with h | ⟨h, _, _⟩
    · rw [show step env (.returnAll sender) = tryFinalize env sender false true from rfl, h,
        settle]
      simp [settleAfterPick_tokens, settleAfterPick_is_completed]
    · rw [show step env (.returnAll sender) = tryFinalize env sender false true from rfl, h]
      simp
  | viewBid bidder =>
    simp only [step, tryViewBid]
    split_ifs <;> try simp
    rcases hget : ledgerGet env.ledger bidder with _ | old <;> simp [hget]

/-- **C4**: under every sequence of operations, neither `tokens_consigned`
nor `is_completed` ever transitions from `true` to `false`. -/
theorem C4_one_way_latches (env : Env) (ops : List Op) :
    (env.state.tokens_consigned = true → (runOps env ops).1.state.tokens_consigned = true) ∧
    (env.state.is_completed = true → (runOps env ops).1.state.is_completed = true) := by
  induction ops generalizing env with
  | nil => simp [runOps]
  | cons op rest ih =>
    simp only [runOps]
    exact ⟨fun h => (ih _).1 ((step_latches env op).1 h),
      fun h => (ih _).2 ((step_latches env op).2 h)⟩

theorem C4_one_way_latches_witness :
    (runOps ⟨⟨0, 5, 1, 5, [], true, true, none⟩, []⟩
        [.returnAll 2, .consign 0 7]).1.state.tokens_consigned = true ∧
    (runOps ⟨⟨0, 5, 1, 5, [], true, true, none⟩, []⟩
        [.returnAll 2, .consign 0 7]).1.state.is_completed = true :=
  ⟨(C4_one_way_latches _ _).1 rfl, (C4_one_way_latches _ _).2 rfl⟩

/-! ### Consign postcondition -/

/-- **C5**: consigning on an open, not-yet-fully-consigned auction by the
seller: with `total = currently_consigned + amount`, if `total < sell_amount`
then `currently_consigned` becomes `total`, the answer reports failure with
`amount_needed = sell_amount - total` and no transfer is requested;
otherwise `tokens_consigned` latches, `currently_consigned` becomes exactly
`sell_amount`, the answer reports success, and a refund of
`total - sell_amount` to the depositor is requested iff `total > sell_amount`. -/
theorem C5_consign_postcondition (env : Env) (owner amount : Nat)
    (howner : owner = env.state.seller)
    (hopen : env.state.is_completed = false)
    (hnc : env.state.tokens_consigned = false) :
    (env.state.currently_consigned + amount < env.state.sell_amount →
      tryConsign env owner amount =
        ⟨⟨{ env.state with currently_consigned := env.state.currently_consigned + amount },
            env.ledger⟩, [],
          .consign .Failure msgConsignPartial
            (some (env.state.currently_consigned + amount))
            (some (env.state.sell_amount - (env.state.currently_consigned + amount))) none⟩) ∧
    (env.state.sell_amount ≤ env.state.currently_consigned + amount →
      (tryConsign env owner amount).env.state.tokens_consigned = true ∧
      (tryConsign env owner amount).env.state.currently_consigned = env.state.sell_amount ∧
      (tryConsign env owner amount).answer.status = .Success ∧
      (tryConsign env owner amount).msgs =
        (if env.state.sell_amount < env.state.currently_consigned + amount then
          [⟨.sale, owner, env.state.currently_consigned + amount - env.state.sell_amount⟩]
        else [])) := by
  constructor
  · intro hlt
    simp [tryConsign, howner, hopen, hnc, hlt]
  · intro hge
    have hnlt : ¬ env.state.currently_consigned + amount < env.state.sell_amount :=
      Nat.not_lt.mpr hge
    simp [tryConsign, howner, hopen, hnc, hnlt, Answer.status]

theorem C5_consign_postcondition_witness :
    (tryConsign (initEnv 0 100 10 none) 0 60).env.state.currently_consigned = 60 ∧
    (tryConsign (initEnv 0 100 10 none) 0 160).answer.status = .Success ∧
    (tryConsign (initEnv 0 100 10 none) 0 160).msgs = [⟨.sale, 0, 60⟩] := by
  refine ⟨?_, ?_, ?_⟩
  · rw [(C5_consign_postcondition (initEnv 0 100 10 none) 0 60 rfl rfl rfl).1 (by decide)]
    rfl
  · exact ((C5_consign_postcondition (initEnv 0 100 10 none) 0 160 rfl rfl rfl).2
      (by decide)).2.2.1
  · rw [((C5_consign_postcondition (initEnv 0 100 10 none) 0 160 rfl rfl rfl).2
      (by decide)).2.2.2]
    decide

/-! ### Zero-bid refund asymmetry -/

/-- **C7**: on an open auction, a zero-amount bid is rejected with no
transfer and no state change, whereas a positive bid below `minimum_bid` is
rejected with exactly one refund of the bid amount and no state change. -/
theorem C7_zero_bid_asymmetry (env : Env) (bidder amount time : Nat)
    (hopen : env.state.is_completed = false) :
    tryBid env bidder 0 time = ⟨env, [], .bid .Failure msgBidZero none none none⟩ ∧
    (0 < amount → amount < env.state.minimum_bid →
      tryBid env bidder amount time =
        ⟨env, [⟨.bid, bidder, amount⟩],
          .bid .Failure msgBidBelowMinimum none none (some amount)⟩) := by
  constructor
  · simp [tryBid, hopen]
  · intro h0 hmin
    have hne : ¬ amount = 0 := by omega
    simp [tryBid, hopen, hne, hmin]

theorem C7_zero_bid_asymmetry_witness :
    tryBid (initEnv 0 100 10 none) 4 0 1 =
      ⟨initEnv 0 100 10 none, [], .bid .Failure msgBidZero none none none⟩ ∧
    tryBid (initEnv 0 100 10 none) 4 7 1 =
      ⟨initEnv 0 100 10 none, [⟨.bid, 4, 7⟩],
        .bid .Failure msgBidBelowMinimum none none (some 7)⟩ :=
  ⟨(C7_zero_bid_asymmetry (initEnv 0 100 10 none) 4 0 1 rfl).1,
    (C7_zero_bid_asymmetry (initEnv 0 100 10 none) 4 7 1 rfl).2 (by decide) (by decide)⟩

/-! ### Response padding -/

/-- **C9**: `space_pad` at `RESPONSE_BLOCK_SIZE` always produces a payload
whose length is a multiple of 256 bytes, and `pad_log_str` pads any log
string of at most 256 characters to exactly 256 characters (the `usize`
subtraction `256 - length` requires that bound). -/
theorem C9_response_padding (data : List UInt8) (response : String)
    (hlen : response.length ≤ RESPONSE_BLOCK_SIZE) :
    (space_pad RESPONSE_BLOCK_SIZE data).length % RESPONSE_BLOCK_SIZE = 0 ∧
    (pad_log_str RESPONSE_BLOCK_SIZE response).length = RESPONSE_BLOCK_SIZE := by
  constructor
  · show (space_pad 256 data).length % 256 = 0
    simp only [space_pad]
    by_cases h : data.length % 256 = 0
    · simp [h]
    · simp only [h, if_false, List.length_append, List.length_replicate]
      omega
  · show (pad_log_str 256 response).length = 256
    have hlen' : response.length ≤ 256 := hlen
    simp only [pad_log_str]
    rw [String.length_append]
    simp only [String.length_mk, List.length_replicate]
    omega

theorem C9_response_padding_witness :
    ("ok").length ≤ RESPONSE_BLOCK_SIZE ∧
    ((space_pad RESPONSE_BLOCK_SIZE [1, 2, 3]).length % RESPONSE_BLOCK_SIZE = 0 ∧
      (pad_log_str RESPONSE_BLOCK_SIZE ("ok")).length = RESPONSE_BLOCK_SIZE) :=
  ⟨by decide, C9_response_padding [1, 2, 3] ("ok") (by decide)⟩

end Auction
namespace Auction

/-! ### Reject-branch atomicity (C3) -/

/-- **C3** (counterexample): a Consign by the seller of less than the
remaining sale amount reports `Failure` yet changes the stored state
(`currently_consigned` becomes the partial total), so it is not true that
every Failure-reporting operation leaves the state untouched. -/
theorem C3_counterexample :
    (tryConsign (initEnv 0 100 10 none) 0 60).answer.status = .Failure ∧
    (tryConsign (initEnv 0 100 10 none) 0 60).env ≠ initEnv 0 100 10 none := by
  decide

/-- **C3** (amended): every operation whose result reports `Failure` leaves
the state and the bid ledger unchanged, except Consign's
failure-to-complete branch (seller deposit on an open, not-fully-consigned
auction summing to less than `sell_amount`), which changes exactly
`currently_consigned` to the new total and requests no transfer.  Each
operation still produces its state change and its transfer requests
together, as the single result of the step. -/
theorem C3_failure_atomicity (env : Env) (op : Op)
    (hF : (step env op).answer.status = .Failure) :
    (step env op).env = env ∨
    (∃ amount, op = .consign env.state.seller amount ∧
      env.state.is_completed = false ∧ env.state.tokens_consigned = false ∧
      env.state.currently_consigned + amount < env.state.sell_amount ∧
      (step env op).env =
        ⟨{ env.state with currently_consigned := env.state.currently_consigned + amount },
          env.ledger⟩ ∧
      (step env op).msgs = []) := by
  cases op with
  | consign owner amount =>
    simp only [step, tryConsign] at hF ⊢
    split_ifs at hF ⊢ with h1 h2 h3 h4 h5
    · exact Or.inl rfl
    · exact Or.inl rfl
    · exact Or.inl rfl
    · right
      simp only [Bool.not_eq_true] at h2 h3
      refine ⟨amount, ?_, h2, h3, h4, rfl, rfl⟩
      rw [not_not.mp h1]
    · simp [Answer.status] at hF
    · simp [Answer.status] at hF
  | placeBid bidder amount time =>
    rcases hget : ledgerGet env.ledger bidder with _ | old <;>
      simp only [step, tryBid, hget] at hF ⊢ <;>
      split_ifs at hF ⊢ <;>
      first
      | exact Or.inl rfl
      | simp [Answer.status] at hF
  | retractBid bidder =>
    rcases hget : ledgerGet env.ledger bidder with _ | old <;>
      simp only [step, tryRetract, hget] at hF ⊢ <;>
      split_ifs at hF ⊢ <;>
      first
      | exact Or.inl rfl
      | simp [Answer.status] at hF
  | finalize sender oib =>
    rcases tryFinalize_cases env sender oib false with h | ⟨h, _, _⟩
    · rw [show step env (.finalize sender oib) = tryFinalize env sender oib false from rfl, h]
        at hF
      rw [settle_status env false] at hF
      exact absurd hF (by decide)
    · exact Or.inl h
  | returnAll sender =>
    rcases tryFinalize_cases env sender false true with h | ⟨h, _, _⟩
    · rw [show step env (.returnAll sender) = tryFinalize env sender false true from rfl, h]
        at hF
      rw [settle_status env true] at hF
      exact absurd hF (by decide)
    · exact Or.inl h
  | viewBid bidder =>
    rcases hget : ledgerGet env.ledger bidder with _ | old <;>
      simp only [step, tryViewBid, hget] <;>
      split_ifs <;>
      exact Or.inl rfl

theorem C3_failure_atomicity_witness :
    (step (initEnv 0 100 10 none) (.placeBid 4 7 1)).answer.status = .Failure ∧
    (step (initEnv 0 100 10 none) (.placeBid 4 7 1)).env = initEnv 0 100 10 none := by
  refine ⟨by decide, ?_⟩
  rcases C3_failure_atomicity (initEnv 0 100 10 none) (.placeBid 4 7 1) (by decide) with
    h | ⟨amount, hop, _⟩
  · exact h
  · exact Op.noConfusion hop

/-! ### Bid replacement (C6) -/

/-- **C6**: a strictly higher bid by a bidder with an existing bid `old`
(which, having been accepted, is at least `minimum_bid`) replaces the stored
record by `{amount, timestamp}`, requests a refund of exactly `old.amount`
to the same bidder in the same operation, reports success with
`amount_bid = amount` and `amount_returned = old.amount`, and leaves the
bidder the sole holder of a single record (all other keys unchanged, the
bidder set unchanged). -/
theorem C6_bid_replacement (env : Env) (bidder amount time : Nat) (old : Bid)
    (hopen : env.state.is_completed = false)
    (hmem : bidder ∈ env.state.bidders)
    (hold : ledgerGet env.ledger bidder = some old)
    (hmin : env.state.minimum_bid ≤ old.amount)
    (hgt : old.amount < amount) :
    ledgerGet (tryBid env bidder amount time).env.ledger bidder = some ⟨amount, time⟩ ∧
    (∀ k, k ≠ bidder →
      ledgerGet (tryBid env bidder amount time).env.ledger k = ledgerGet env.ledger k) ∧
    (tryBid env bidder amount time).env.state = env.state ∧
    (tryBid env bidder amount time).msgs = [⟨.bid, bidder, old.amount⟩] ∧
    (tryBid env bidder amount time).answer =
      .bid .Success msgBidAcceptedReturned none (some amount) (some old.amount) := by
  have hne : ¬ amount = 0 := by omega
  have hnmin : ¬ amount < env.state.minimum_bid := by omega
  have hnle : ¬ amount ≤ old.amount := by omega
  simp only [tryBid, hopen, Bool.false_eq_true, if_false, hne, hnmin, hmem, if_true, hold,
    hnle]
  refine ⟨ledgerGet_set_self _ _ _, fun k hk => ledgerGet_set_ne _ _ hk, ?_, ?_, ?_⟩ <;>
    trivial

theorem C6_bid_replacement_witness :
    ledgerGet (tryBid ⟨⟨0, 100, 10, 0, [4], false, false, none⟩, [(4, ⟨20, 1⟩)]⟩
        4 25 2).env.ledger 4 = some ⟨25, 2⟩ ∧
    (tryBid ⟨⟨0, 100, 10, 0, [4], false, false, none⟩, [(4, ⟨20, 1⟩)]⟩ 4 25 2).msgs =
      [⟨.bid, 4, 20⟩] := by
  have h := C6_bid_replacement ⟨⟨0, 100, 10, 0, [4], false, false, none⟩, [(4, ⟨20, 1⟩)]⟩
    4 25 2 ⟨20, 1⟩ rfl (by decide) (by decide) (by decide) (by decide)
  exact ⟨h.1, h.2.2.2.1⟩

end Auction
namespace Auction

/-! ### Loaded bids and bulk removal -/

theorem mem_loadBids {ledger : List (Nat × Bid)} {bidders : List Nat} {ob : OwnedBid}
    (h : ob ∈ loadBids ledger bidders) :
    ob.bidder ∈ bidders ∧ ledgerGet ledger ob.bidder = some ob.bid := by
  rw [loadBids, List.mem_filterMap] at h
  obtain ⟨a, ha, hfa⟩ := h
  rcases hg : ledgerGet ledger a with _ | bd <;> rw [hg] at hfa
  · simp at hfa
  · simp only [Option.map_some'] at hfa
    cases hfa
    exact ⟨ha, hg⟩

theorem loadBids_mem {ledger : List (Nat × Bid)} {bidders : List Nat} {b : Nat} {bd : Bid}
    (hb : b ∈ bidders) (hg : ledgerGet ledger b = some bd) :
    (⟨b, bd⟩ : OwnedBid) ∈ loadBids ledger bidders := by
  rw [loadBids, List.mem_filterMap]
  exact ⟨b, hb, by rw [hg]; rfl⟩

theorem loadBids_eq_nil {ledger : List (Nat × Bid)} {bidders : List Nat}
    (h : ∀ b ∈ bidders, ledgerGet ledger b = none) : loadBids ledger bidders = [] := by
  induction bidders with
  | nil => rfl
  | cons x t ih =>
    rw [loadBids, List.filterMap_cons, h x (List.mem_cons_self x t)]
    exact ih fun b hb => h b (List.mem_cons_of_mem x hb)

theorem ledgerGet_foldl_remove (rl : List OwnedBid) (ledger : List (Nat × Bid)) (k : Nat) :
    ledgerGet (rl.foldl (fun led ob => ledgerRemove led ob.bidder) ledger) k =
      if k ∈ rl.map OwnedBid.bidder then none else ledgerGet ledger k := by
  induction rl generalizing ledger with
  | nil => simp
  | cons ob rest ih =>
    rw [List.foldl_cons, ih, List.map_cons]
    by_cases hmem : k ∈ rest.map OwnedBid.bidder
    · rw [if_pos hmem, if_pos (List.mem_cons.mpr (Or.inr hmem))]
    · rw [if_neg hmem]
      by_cases hk : k = ob.bidder
      · rw [if_pos (List.mem_cons.mpr (Or.inl hk)), hk]
        exact ledgerGet_remove_self _ _
      · rw [if_neg (by simp [List.mem_cons, hk, hmem]), ledgerGet_remove_ne _ hk]

theorem mem_foldl_removeBidder (rl : List OwnedBid) (bs : List Nat) (b : Nat) :
    b ∈ rl.foldl (fun l ob => removeBidder l ob.bidder) bs ↔
      b ∈ bs ∧ b ∉ rl.map OwnedBid.bidder := by
  induction rl generalizing bs with
  | nil => simp
  | cons ob rest ih =>
    rw [List.foldl_cons, ih, mem_removeBidder, List.map_cons, List.mem_cons]
    constructor
    · rintro ⟨⟨h1, h2⟩, h3⟩
      exact ⟨h1, by tauto⟩
    · rintro ⟨h1, h2⟩
      exact ⟨⟨h1, by tauto⟩, by tauto⟩

/-! ### The settlement pass sweeps every loaded bid -/

/-- After a settlement pass, every bidder still present in the bidder set
has no bid record left. -/
theorem settle_swept (env : Env) (ra : Bool) :
    ∀ b ∈ (settle env ra).env.state.bidders,
      ledgerGet (settle env ra).env.ledger b = none := by
  by_cases hdw : env.state.tokens_consigned = true ∧ env.state.is_completed = false
  · have hpick : settlePick env =
        (((loadBids env.ledger env.state.bidders).mergeSort bidLE).dropLast,
          ((loadBids env.ledger env.state.bidders).mergeSort bidLE).getLast?) := by
      simp [settlePick, hdw.1, hdw.2]
    rcases hlast : ((loadBids env.ledger env.state.bidders).mergeSort bidLE).getLast?
      with _ | w
    · -- the sorted list, hence the loaded list, is empty: nothing changes
      have hnil : (loadBids env.ledger env.state.bidders).mergeSort bidLE = [] :=
        List.getLast?_eq_none_iff.mp hlast
      have hperm := List.mergeSort_perm (loadBids env.ledger env.state.bidders) bidLE
      rw [hnil] at hperm
      have hload : loadBids env.ledger env.state.bidders = [] := hperm.symm.eq_nil
      intro b hb
      simp only [settle, hpick, hnil, List.dropLast_nil, List.getLast?_nil] at hb ⊢
      rw [settleAfterPick_bidders_none, refundLosers_bidders] at hb
      rw [settleAfterPick_ledger_none, refundLosers_ledger]
      simp only [List.foldl_nil] at hb ⊢
      rcases hg : ledgerGet env.ledger b with _ | bd
      · rfl
      · exact absurd (loadBids_mem hb hg) (by rw [hload]; exact List.not_mem_nil _)
    · -- a winner was popped; the rest are refunded and removed
      obtain ⟨ys, hys⟩ := List.getLast?_eq_some_iff.mp hlast
      have hdrop : ((loadBids env.ledger env.state.bidders).mergeSort bidLE).dropLast = ys := by
        rw [hys]
        exact List.dropLast_concat
      intro b hb
      simp only [settle, hpick, hlast, hdrop] at hb ⊢
      rw [settleAfterPick_bidders_some, refundLosers_bidders, mem_foldl_removeBidder,
        mem_removeBidder] at hb
      rw [settleAfterPick_ledger_some, refundLosers_ledger, ledgerGet_foldl_remove,
        if_neg hb.2, ledgerGet_remove_ne _ hb.1.2]
      rcases hg : ledgerGet env.ledger b with _ | bd
      · rfl
      · exfalso
        have hmem := loadBids_mem hb.1.1 hg
        have hmem' : (⟨b, bd⟩ : OwnedBid) ∈ ys ++ [w] :=
          hys ▸ ((List.mergeSort_perm _ bidLE).mem_iff.mpr hmem)
        rcases List.mem_append.mp hmem' with hmem'' | hmem''
        · exact hb.2 (List.mem_map.mpr ⟨⟨b, bd⟩, hmem'', rfl⟩)
        · have heq : (⟨b, bd⟩ : OwnedBid) = w := by simpa using hmem''
          exact hb.1.2 (congrArg OwnedBid.bidder heq)
  · -- no winner selection: every loaded bid is refunded and removed
    have hpick : settlePick env = (loadBids env.ledger env.state.bidders, none) := by
      simp only [settlePick]
      rw [if_neg hdw]
    intro b hb
    simp only [settle, hpick] at hb ⊢
    rw [settleAfterPick_bidders_none, refundLosers_bidders, mem_foldl_removeBidder] at hb
    rw [settleAfterPick_ledger_none, refundLosers_ledger, ledgerGet_foldl_remove,
      if_neg hb.2]
    rcases hg : ledgerGet env.ledger b with _ | bd
    · rfl
    · exact absurd (List.mem_map.mpr ⟨⟨b, bd⟩, loadBids_mem hb.1 hg, rfl⟩) hb.2

/-- Settlement on a completed, swept state with nothing consigned is a
no-op producing the return-all success answer. -/
theorem settle_idempotent (env : Env)
    (hcomp : env.state.is_completed = true)
    (hcc : env.state.currently_consigned = 0)
    (hswept : ∀ b ∈ env.state.bidders, ledgerGet env.ledger b = none) :
    settle env true = ⟨env, [], .closeAuction .Success msgOutstandingReturned none none⟩ := by
  obtain ⟨⟨s1, s2, s3, s4, s5, s6, s7, s8⟩, led⟩ := env
  simp only at hcomp hcc hswept
  subst hcomp
  subst hcc
  have hload : loadBids led s5 = [] := loadBids_eq_nil hswept
  have hpick : settlePick ⟨⟨s1, s2, s3, 0, s5, true, s7, s8⟩, led⟩ = ([], none) := by
    simp [settlePick, hload]
  simp only [settle, hpick, settleAfterPick, refundLosers]
  simp

theorem tryFinalize_returnAll_completed (env : Env) (sender : Nat)
    (hcomp : env.state.is_completed = true) :
    tryFinalize env sender false true = settle env true := by
  simp [tryFinalize, hcomp]

/-- **C8**: `ReturnAll` on a not-yet-completed state is rejected with no
state change and no transfers; on a completed state, a second `ReturnAll`
after a first one requests no transfers, changes nothing, and returns the
same success result as a run on an already-swept state. -/
theorem C8_returnAll_idempotent (env : Env) (sender sender2 : Nat) :
    (env.state.is_completed = false →
      tryFinalize env sender false true =
        ⟨env, [], .closeAuction .Failure msgReturnAllBeforeEnd none none⟩) ∧
    (env.state.is_completed = true →
      tryFinalize (tryFinalize env sender false true).env sender2 false true =
        ⟨(tryFinalize env sender false true).env, [],
          .closeAuction .Success msgOutstandingReturned none none⟩) := by
  constructor
  · intro hopen
    simp [tryFinalize, hopen]
  · intro hcomp
    rw [tryFinalize_returnAll_completed env sender hcomp]
    have h1comp : (settle env true).env.state.is_completed = true := by
      unfold settle
      exact settleAfterPick_is_completed _ _ _ _
    have h1cc : (settle env true).env.state.currently_consigned = 0 := by
      unfold settle
      exact settleAfterPick_cc _ _ _ _
    rw [tryFinalize_returnAll_completed _ sender2 h1comp,
      settle_idempotent _ h1comp h1cc (settle_swept env true)]

theorem C8_returnAll_idempotent_witness :
    tryFinalize (initEnv 0 100 10 none) 5 false true =
      ⟨initEnv 0 100 10 none, [], .closeAuction .Failure msgReturnAllBeforeEnd none none⟩ ∧
    tryFinalize (tryFinalize ⟨⟨0, 100, 10, 40, [4], true, true, none⟩, [(4, ⟨20, 1⟩)]⟩
        5 false true).env 6 false true =
      ⟨(tryFinalize ⟨⟨0, 100, 10, 40, [4], true, true, none⟩, [(4, ⟨20, 1⟩)]⟩
          5 false true).env,
        [], .closeAuction .Success msgOutstandingReturned none none⟩ :=
  ⟨(C8_returnAll_idempotent (initEnv 0 100 10 none) 5 6).1 rfl,
    (C8_returnAll_idempotent ⟨⟨0, 100, 10, 40, [4], true, true, none⟩, [(4, ⟨20, 1⟩)]⟩
      5 6).2 rfl⟩

end Auction
namespace Auction

/-! ### Post-close emptiness (C10) -/

theorem ledgerGet_some_mem {l : List (Nat × Bid)} {k : Nat} {b : Bid}
    (h : ledgerGet l k = some b) : (k, b) ∈ l := by
  induction l with
  | nil => simp [ledgerGet] at h
  | cons e t ih =>
    by_cases he : e.1 = k
    · rw [ledgerGet, if_pos he] at h
      cases h
      rw [← he]
      exact List.mem_cons_self _ _
    · rw [ledgerGet, if_neg he] at h
      exact List.mem_cons_of_mem _ (ih h)

theorem ledger_eq_nil_of_get_none (l : List (Nat × Bid))
    (h : ∀ k, ledgerGet l k = none) : l = [] := by
  cases l with
  | nil => rfl
  | cons e t =>
    have := h e.1
    rw [ledgerGet, if_pos rfl] at this
    cases this

/-- The three possible outcomes of winner selection: no selection pass
(`tokens_consigned` false or already completed), a popped winner with the
sorted prefix as losers, or an empty loaded list. -/
theorem settlePick_shape (env : Env) :
    settlePick env = (loadBids env.ledger env.state.bidders, none) ∨
    (∃ ys w, (loadBids env.ledger env.state.bidders).mergeSort bidLE = ys ++ [w] ∧
      settlePick env = (ys, some w)) ∨
    (loadBids env.ledger env.state.bidders = [] ∧ settlePick env = ([], none)) := by
  by_cases hdw : env.state.tokens_consigned = true ∧ env.state.is_completed = false
  · rcases hlast : ((loadBids env.ledger env.state.bidders).mergeSort bidLE).getLast?
      with _ | w
    · right; right
      have hnil := List.getLast?_eq_none_iff.mp hlast
      have hperm := List.mergeSort_perm (loadBids env.ledger env.state.bidders) bidLE
      rw [hnil] at hperm
      refine ⟨hperm.symm.eq_nil, ?_⟩
      simp [settlePick, hdw.1, hdw.2, hnil]
    · right; left
      obtain ⟨ys, hys⟩ := List.getLast?_eq_some_iff.mp hlast
      refine ⟨ys, w, hys, ?_⟩
      simp [settlePick, hdw.1, hdw.2, hys]
  · left
    simp only [settlePick]
    rw [if_neg hdw]

/-- When invariant I3 holds on entry (bidder set and ledger keys agree),
the settlement pass empties both the bidder set and the ledger. -/
theorem settle_clears (env : Env) (ra : Bool)
    (hI3a : ∀ b ∈ env.state.bidders, ledgerGet env.ledger b ≠ none)
    (hI3b : ∀ e ∈ env.ledger, e.1 ∈ env.state.bidders) :
    (settle env ra).env.state.bidders = [] ∧ (settle env ra).env.ledger = [] := by
  have hcover : ∀ b ∈ env.state.bidders,
      b ∈ (loadBids env.ledger env.state.bidders).map OwnedBid.bidder := by
    intro b hb
    rcases hg : ledgerGet env.ledger b with _ | bd
    · exact absurd hg (hI3a b hb)
    · exact List.mem_map.mpr ⟨⟨b, bd⟩, loadBids_mem hb hg, rfl⟩
  have hkey : ∀ k bd, ledgerGet env.ledger k = some bd → k ∈ env.state.bidders :=
    fun k bd h => hI3b _ (ledgerGet_some_mem h)
  rcases settlePick_shape env with hp | ⟨ys, w, hys, hp⟩ | ⟨hnil, hp⟩
  · constructor
    · rw [List.eq_nil_iff_forall_not_mem]
      intro b hb
      simp only [settle, hp] at hb
      rw [settleAfterPick_bidders_none, refundLosers_bidders,
        mem_foldl_removeBidder] at hb
      exact hb.2 (hcover b hb.1)
    · simp only [settle, hp]
      rw [settleAfterPick_ledger_none, refundLosers_ledger]
      apply ledger_eq_nil_of_get_none
      intro k
      rw [ledgerGet_foldl_remove]
      by_cases hmem : k ∈ (loadBids env.ledger env.state.bidders).map OwnedBid.bidder
      · rw [if_pos hmem]
      · rw [if_neg hmem]
        rcases hg : ledgerGet env.ledger k with _ | bd
        · rfl
        · exact absurd (hcover k (hkey k bd hg)) hmem
  · have hsplit : ∀ b ∈ env.state.bidders, b ∈ ys.map OwnedBid.bidder ∨ b = w.bidder := by
      intro b hb
      obtain ⟨ob, hob, hobb⟩ := List.mem_map.mp (hcover b hb)
      have hmem' : ob ∈ ys ++ [w] :=
        hys ▸ ((List.mergeSort_perm _ bidLE).mem_iff.mpr hob)
      rcases List.mem_append.mp hmem' with h | h
      · exact Or.inl (List.mem_map.mpr ⟨ob, h, hobb⟩)
      · have : ob = w := by simpa using h
        exact Or.inr (hobb ▸ congrArg OwnedBid.bidder this)
    constructor
    · rw [List.eq_nil_iff_forall_not_mem]
      intro b hb
      simp only [settle, hp] at hb
      rw [settleAfterPick_bidders_some, refundLosers_bidders,
        mem_foldl_removeBidder, mem_removeBidder] at hb
      rcases hsplit b hb.1.1 with h | h
      · exact hb.2 h
      · exact hb.1.2 h
    · simp only [settle, hp]
      rw [settleAfterPick_ledger_some, refundLosers_ledger]
      apply ledger_eq_nil_of_get_none
      intro k
      rw [ledgerGet_foldl_remove]
      by_cases hmem : k ∈ ys.map OwnedBid.bidder
      · rw [if_pos hmem]
      · rw [if_neg hmem]
        by_cases hkw : k = w.bidder
        · rw [hkw]
          exact ledgerGet_remove_self _ _
        · rw [ledgerGet_remove_ne _ hkw]
          rcases hg : ledgerGet env.ledger k with _ | bd
          · rfl
          · rcases hsplit k (hkey k bd hg) with h | h
            · exact absurd h hmem
            · exact absurd h hkw
  · have hbid : env.state.bidders = [] := by
      rw [List.eq_nil_iff_forall_not_mem]
      intro b hb
      have := hcover b hb
      rw [hnil] at this
      exact List.not_mem_nil _ this
    have hled : env.ledger = [] := by
      cases hl : env.ledger with
      | nil => rfl
      | cons e t =>
        have := hI3b e (hl ▸ List.mem_cons_self e t)
        rw [hbid] at this
        exact absurd this (List.not_mem_nil _)
    constructor
    · simp only [settle, hp]
      rw [settleAfterPick_bidders_none, refundLosers_bidders, List.foldl_nil]
      exact hbid
    · simp only [settle, hp]
      rw [settleAfterPick_ledger_none, refundLosers_ledger, List.foldl_nil]
      exact hled

/-- **C10**: every `Finalize` or `ReturnAll` call that reports `Success`,
on a state satisfying invariant I3 (the bidder set and the set of ledger
keys agree), leaves an empty bidder set, an empty bid ledger,
`currently_consigned = 0` and `is_completed = true`. -/
theorem C10_post_close_empty (env : Env) (sender : Nat) (oib ra : Bool)
    (hI3 : (∀ b ∈ env.state.bidders, ledgerGet env.ledger b ≠ none) ∧
      (∀ e ∈ env.ledger, e.1 ∈ env.state.bidders))
    (hS : (tryFinalize env sender oib ra).answer.status = .Success) :
    (tryFinalize env sender oib ra).env.state.bidders = [] ∧
    (tryFinalize env sender oib ra).env.ledger = [] ∧
    (tryFinalize env sender oib ra).env.state.currently_consigned = 0 ∧
    (tryFinalize env sender oib ra).env.state.is_completed = true := by
  rcases tryFinalize_cases env sender oib ra with h | ⟨_, _, hf⟩
  · rw [h]
    obtain ⟨hb, hl⟩ := settle_clears env ra hI3.1 hI3.2
    refine ⟨hb, hl, ?_, ?_⟩
    · unfold settle
      exact settleAfterPick_cc _ _ _ _
    · unfold settle
      exact settleAfterPick_is_completed _ _ _ _
  · rw [hf] at hS
    exact absurd hS (by decide)

theorem C10_post_close_empty_witness :
    (tryFinalize ⟨⟨0, 100, 10, 40, [4, 9], false, false, none⟩,
        [(4, ⟨20, 1⟩), (9, ⟨30, 2⟩)]⟩ 0 false false).env.state.bidders = [] ∧
    (tryFinalize ⟨⟨0, 100, 10, 40, [4, 9], false, false, none⟩,
        [(4, ⟨20, 1⟩), (9, ⟨30, 2⟩)]⟩ 0 false false).env.ledger = [] ∧
    (tryFinalize ⟨⟨0, 100, 10, 40, [4, 9], false, false, none⟩,
        [(4, ⟨20, 1⟩), (9, ⟨30, 2⟩)]⟩ 0 false false).env.state.currently_consigned = 0 ∧
    (tryFinalize ⟨⟨0, 100, 10, 40, [4, 9], false, false, none⟩,
        [(4, ⟨20, 1⟩), (9, ⟨30, 2⟩)]⟩ 0 false false).env.state.is_completed = true :=
  C10_post_close_empty ⟨⟨0, 100, 10, 40, [4, 9], false, false, none⟩,
    [(4, ⟨20, 1⟩), (9, ⟨30, 2⟩)]⟩ 0 false false ⟨by decide, by decide⟩ (by decide)

end Auction
namespace Auction

/-! ### Winner selection (C2) -/

theorem bidLE_iff (a b : OwnedBid) : bidLE a b = true ↔
    (a.bid.amount < b.bid.amount ∨
      (a.bid.amount = b.bid.amount ∧ b.bid.timestamp ≤ a.bid.timestamp)) := by
  simp [bidLE]

theorem bidLE_total (a b : OwnedBid) : bidLE a b || bidLE b a := by
  simp only [Bool.or_eq_true, bidLE_iff]
  omega

theorem bidLE_trans (a b c : OwnedBid) (h1 : bidLE a b) (h2 : bidLE b c) : bidLE a c := by
  rw [bidLE_iff] at h1 h2 ⊢
  omega

theorem bidLE_refl (a : OwnedBid) : bidLE a a := by
  rw [bidLE_iff]
  omega

/-- The popped last element of the stable sort is a greatest element for
`bidLE`: no other loaded bid has a larger amount, and among equal amounts
none has an earlier timestamp. -/
theorem winner_max {l ys : List OwnedBid} {w : OwnedBid}
    (h : l.mergeSort bidLE = ys ++ [w]) :
    w ∈ l ∧ ∀ x ∈ l, bidLE x w := by
  have hsorted : (l.mergeSort bidLE).Pairwise (fun a b => bidLE a b) :=
    List.sorted_mergeSort (fun a b c => bidLE_trans a b c) bidLE_total l
  rw [h] at hsorted
  have hperm := List.mergeSort_perm l bidLE
  rw [h] at hperm
  constructor
  · exact hperm.mem_iff.mp (List.mem_append.mpr (Or.inr (List.mem_cons_self w [])))
  · intro x hx
    have hx' : x ∈ ys ++ [w] := hperm.mem_iff.mpr hx
    rcases List.mem_append.mp hx' with h1 | h1
    · exact (List.pairwise_append.mp hsorted).2.2 x h1 w (List.mem_cons_self w [])
    · have hxw : x = w := by simpa using h1
      rw [hxw]
      exact bidLE_refl w

/-- **C2**: on a fully consigned, not-yet-completed auction with a
non-empty bidder set in which every bidder has a bid record, a seller
`Finalize` selects a winner `w` whose amount is maximal and whose timestamp
is smallest among the maximal-amount bids, requests the winning bid amount
to the seller followed by `sell_amount` to the winner, and — when the
maximal-amount bids have pairwise distinct timestamps — selects the same
winner for any iteration order (permutation) of the bidder set. -/
theorem C2_winner_selection (env : Env) (sender : Nat) (oib : Bool) (bidders2 : List Nat)
    (hsender : sender = env.state.seller)
    (hcons : env.state.tokens_consigned = true)
    (hopen : env.state.is_completed = false)
    (hne : env.state.bidders ≠ [])
    (hrec : ∀ b ∈ env.state.bidders, ledgerGet env.ledger b ≠ none)
    (hperm : bidders2.Perm env.state.bidders)
    (hdist : ∀ a ∈ loadBids env.ledger env.state.bidders,
      ∀ b ∈ loadBids env.ledger env.state.bidders,
      (∀ c ∈ loadBids env.ledger env.state.bidders, c.bid.amount ≤ a.bid.amount) →
      (∀ c ∈ loadBids env.ledger env.state.bidders, c.bid.amount ≤ b.bid.amount) →
      a.bid.timestamp = b.bid.timestamp → a = b) :
    ∃ w : OwnedBid,
      w.bidder ∈ env.state.bidders ∧
      ledgerGet env.ledger w.bidder = some w.bid ∧
      (∀ x ∈ loadBids env.ledger env.state.bidders, x.bid.amount ≤ w.bid.amount) ∧
      (∀ x ∈ loadBids env.ledger env.state.bidders,
        x.bid.amount = w.bid.amount → w.bid.timestamp ≤ x.bid.timestamp) ∧
      (∃ rest, (tryFinalize env sender oib false).msgs =
        ⟨.bid, env.state.seller, w.bid.amount⟩ ::
          ⟨.sale, w.bidder, env.state.sell_amount⟩ :: rest) ∧
      (tryFinalize env sender oib false).answer =
        .closeAuction .Success msgFinalized (some w.bid.amount) none ∧
      (∃ rest2, (tryFinalize ⟨{ env.state with bidders := bidders2 }, env.ledger⟩
          sender oib false).msgs =
        ⟨.bid, env.state.seller, w.bid.amount⟩ ::
          ⟨.sale, w.bidder, env.state.sell_amount⟩ :: rest2) := by
  have hg : tryFinalize env sender oib false = settle env false := by
    simp [tryFinalize, hsender, hne]
  -- the loaded bid list is non-empty
  have hbl : loadBids env.ledger env.state.bidders ≠ [] := by
    rcases hbs : env.state.bidders with _ | ⟨b, rest⟩
    · exact absurd hbs hne
    · have hbmem : b ∈ env.state.bidders := by
        rw [hbs]
        exact List.mem_cons_self b rest
      rcases hg2 : ledgerGet env.ledger b with _ | bd
      · exact absurd hg2 (hrec b hbmem)
      · intro hc
        rw [← hbs] at hc
        have hin := loadBids_mem hbmem hg2
        rw [hc] at hin
        exact List.not_mem_nil _ hin
  have hsne : (loadBids env.ledger env.state.bidders).mergeSort bidLE ≠ [] := by
    intro hc
    have hperm' := List.mergeSort_perm (loadBids env.ledger env.state.bidders) bidLE
    rw [hc] at hperm'
    exact hbl hperm'.symm.eq_nil
  rcases hlast : ((loadBids env.ledger env.state.bidders).mergeSort bidLE).getLast?
    with _ | w
  · exact absurd (List.getLast?_eq_none_iff.mp hlast) hsne
  obtain ⟨ys, hys⟩ := List.getLast?_eq_some_iff.mp hlast
  obtain ⟨hwmem, hwmax⟩ := winner_max hys
  have hmax : ∀ x ∈ loadBids env.ledger env.state.bidders,
      x.bid.amount ≤ w.bid.amount := by
    intro x hx
    have := hwmax x hx
    rw [bidLE_iff] at this
    omega
  have hts : ∀ x ∈ loadBids env.ledger env.state.bidders,
      x.bid.amount = w.bid.amount → w.bid.timestamp ≤ x.bid.timestamp := by
    intro x hx hamt
    have := hwmax x hx
    rw [bidLE_iff] at this
    omega
  have hpick : settlePick env = (ys, some w) := by
    simp [settlePick, hcons, hopen, hys]
  -- the permuted run
  have hne2 : bidders2 ≠ [] := by
    intro hc
    rw [hc] at hperm
    exact hne hperm.symm.eq_nil
  have hpload : (loadBids env.ledger bidders2).Perm
      (loadBids env.ledger env.state.bidders) :=
    hperm.filterMap _
  have hbl2 : loadBids env.ledger bidders2 ≠ [] := by
    intro hc
    rw [hc] at hpload
    exact hbl hpload.symm.eq_nil
  have hsne2 : (loadBids env.ledger bidders2).mergeSort bidLE ≠ [] := by
    intro hc
    have hperm' := List.mergeSort_perm (loadBids env.ledger bidders2) bidLE
    rw [hc] at hperm'
    exact hbl2 hperm'.symm.eq_nil
  rcases hlast2 : ((loadBids env.ledger bidders2).mergeSort bidLE).getLast? with _ | w2
  · exact absurd (List.getLast?_eq_none_iff.mp hlast2) hsne2
  obtain ⟨ys2, hys2⟩ := List.getLast?_eq_some_iff.mp hlast2
  obtain ⟨hwmem2, hwmax2⟩ := winner_max hys2
  have hw2in : w2 ∈ loadBids env.ledger env.state.bidders := hpload.mem_iff.mp hwmem2
  have hmax2 : ∀ x ∈ loadBids env.ledger env.state.bidders,
      x.bid.amount ≤ w2.bid.amount := by
    intro x hx
    have := hwmax2 x (hpload.mem_iff.mpr hx)
    rw [bidLE_iff] at this
    omega
  have htseq : w.bid.timestamp = w2.bid.timestamp := by
    have h1 := hwmax w2 hw2in
    have h2 := hwmax2 w (hpload.mem_iff.mpr hwmem)
    rw [bidLE_iff] at h1 h2
    omega
  have hww2 : w = w2 := hdist w hwmem w2 hw2in hmax hmax2 htseq
  subst hww2
  have hg2 : tryFinalize ⟨{ env.state with bidders := bidders2 }, env.ledger⟩
      sender oib false = settle ⟨{ env.state with bidders := bidders2 }, env.ledger⟩ false := by
    simp [tryFinalize, hsender, hne2]
  have hpick2 : settlePick ⟨{ env.state with bidders := bidders2 }, env.ledger⟩
      = (ys2, some w) := by
    simp [settlePick, hcons, hopen, hys2]
  have hmsgs1 : (tryFinalize env sender oib false).msgs =
      ⟨.bid, env.state.seller, w.bid.amount⟩ ::
        ⟨.sale, w.bidder, env.state.sell_amount⟩ ::
        (refundLosers (ledgerRemove env.ledger w.bidder)
          (removeBidder env.state.bidders w.bidder) ys).1 := by
    rw [hg]
    simp only [settle, hpick]
    rw [settleAfterPick_msgs_some]
  have hans1 : (tryFinalize env sender oib false).answer =
      .closeAuction .Success msgFinalized (some w.bid.amount) none := by
    rw [hg]
    simp only [settle, hpick]
    rw [settleAfterPick_answer_some]
  have hmsgs2 : (tryFinalize ⟨{ env.state with bidders := bidders2 }, env.ledger⟩
        sender oib false).msgs =
      ⟨.bid, env.state.seller, w.bid.amount⟩ ::
        ⟨.sale, w.bidder, env.state.sell_amount⟩ ::
        (refundLosers (ledgerRemove env.ledger w.bidder)
          (removeBidder bidders2 w.bidder) ys2).1 := by
    rw [hg2]
    simp only [settle, hpick2]
    rw [settleAfterPick_msgs_some]
  exact ⟨w, (mem_loadBids hwmem).1, (mem_loadBids hwmem).2, hmax, hts,
    ⟨_, hmsgs1⟩, hans1, ⟨_, hmsgs2⟩⟩

theorem C2_winner_selection_witness :
    ∃ w : OwnedBid,
      w.bidder ∈ (⟨⟨0, 100, 10, 100, [1, 2], false, true, none⟩,
        [(1, ⟨20, 1⟩), (2, ⟨30, 2⟩)]⟩ : Env).state.bidders ∧
      ledgerGet [(1, ⟨20, 1⟩), (2, ⟨30, 2⟩)] w.bidder = some w.bid ∧
      (∀ x ∈ loadBids [(1, ⟨20, 1⟩), (2, ⟨30, 2⟩)] [1, 2],
        x.bid.amount ≤ w.bid.amount) ∧
      (∀ x ∈ loadBids [(1, ⟨20, 1⟩), (2, ⟨30, 2⟩)] [1, 2],
        x.bid.amount = w.bid.amount → w.bid.timestamp ≤ x.bid.timestamp) ∧
      (∃ rest, (tryFinalize ⟨⟨0, 100, 10, 100, [1, 2], false, true, none⟩,
          [(1, ⟨20, 1⟩), (2, ⟨30, 2⟩)]⟩ 0 false false).msgs =
        ⟨.bid, 0, w.bid.amount⟩ :: ⟨.sale, w.bidder, 100⟩ :: rest) ∧
      (tryFinalize ⟨⟨0, 100, 10, 100, [1, 2], false, true, none⟩,
          [(1, ⟨20, 1⟩), (2, ⟨30, 2⟩)]⟩ 0 false false).answer =
        .closeAuction .Success msgFinalized (some w.bid.amount) none ∧
      (∃ rest2, (tryFinalize ⟨{ (⟨0, 100, 10, 100, [1, 2], false, true, none⟩ : State)
            with bidders := [2, 1] }, [(1, ⟨20, 1⟩), (2, ⟨30, 2⟩)]⟩ 0 false false).msgs =
        ⟨.bid, 0, w.bid.amount⟩ :: ⟨.sale, w.bidder, 100⟩ :: rest2) :=
  C2_winner_selection ⟨⟨0, 100, 10, 100, [1, 2], false, true, none⟩,
    [(1, ⟨20, 1⟩), (2, ⟨30, 2⟩)]⟩ 0 false [2, 1] rfl rfl rfl (by decide) (by decide)
    (by decide) (by decide)

end Auction
namespace Auction

/-! ### Conservation (C1): invariant bundle and per-operation accounting -/

/-- Structural invariants maintained by every operation and needed for the
asset-conservation argument: the bidder set has no duplicates, the ledger
has no duplicate keys, `currently_consigned` never exceeds `sell_amount`,
a fully-consigned open auction holds exactly `sell_amount` in escrow, and
every ledger record belongs to a bidder in the bidder set. -/
structure Inv (env : Env) : Prop where
  nodupBidders : env.state.bidders.Nodup
  nodupKeys : (env.ledger.map Prod.fst).Nodup
  cc_le : env.state.currently_consigned ≤ env.state.sell_amount
  full : env.state.tokens_consigned = true → env.state.is_completed = false →
    env.state.currently_consigned = env.state.sell_amount
  orphanFree : ∀ k bd, ledgerGet env.ledger k = some bd → k ∈ env.state.bidders

theorem Inv_init (seller sell_amount minimum_bid : Nat) (d : Option String) :
    Inv (initEnv seller sell_amount minimum_bid d) := by
  refine ⟨List.nodup_nil, List.nodup_nil, Nat.zero_le _, ?_, ?_⟩
  · intro h
    cases h
  · intro k bd h
    cases h

theorem nodup_foldl_removeBidder (rl : List OwnedBid) (bs : List Nat) (h : bs.Nodup) :
    (rl.foldl (fun l ob => removeBidder l ob.bidder) bs).Nodup := by
  induction rl generalizing bs with
  | nil => exact h
  | cons ob rest ih => exact ih _ (nodup_removeBidder _ _ h)

theorem nodupKeys_foldl_remove (rl : List OwnedBid) (l : List (Nat × Bid))
    (h : (l.map Prod.fst).Nodup) :
    (((rl.foldl (fun led ob => ledgerRemove led ob.bidder) l)).map Prod.fst).Nodup := by
  induction rl generalizing l with
  | nil => exact h
  | cons ob rest ih => exact ih _ (nodupKeys_remove _ _ h)

theorem loadBids_pairwise (ledger : List (Nat × Bid)) (bidders : List Nat)
    (h : bidders.Nodup) :
    (loadBids ledger bidders).Pairwise fun a b => a.bidder ≠ b.bidder := by
  induction bidders with
  | nil => exact List.Pairwise.nil
  | cons b rest ih =>
    rw [List.nodup_cons] at h
    rw [loadBids, List.filterMap_cons]
    rcases hg : ledgerGet ledger b with _ | bd
    · exact ih h.2
    · simp only [Option.map_some']
      rw [List.pairwise_cons]
      refine ⟨?_, ih h.2⟩
      intro y hy
      have := (mem_loadBids hy).1
      intro hc
      rw [← hc] at this
      exact h.1 this

/-- Refunding a list of loaded bids with pairwise-distinct bidders, each
present in the ledger, removes exactly their total amount from the
escrowed sum and requests exactly that total in bid-asset transfers. -/
theorem refundLosers_sum (rl : List OwnedBid) (ledger : List (Nat × Bid))
    (bidders : List Nat)
    (hnd : (ledger.map Prod.fst).Nodup)
    (hmem : ∀ ob ∈ rl, ledgerGet ledger ob.bidder = some ob.bid)
    (hdist : rl.Pairwise fun a b => a.bidder ≠ b.bidder) :
    ledgerSum ledger =
      outSum .bid (refundLosers ledger bidders rl).1 +
        ledgerSum (refundLosers ledger bidders rl).2.1 := by
  induction rl generalizing ledger bidders with
  | nil => simp [refundLosers, outSum]
  | cons ob rest ih =>
    rw [List.pairwise_cons] at hdist
    have hob := hmem ob (List.mem_cons_self ob rest)
    have hstep := ledgerSum_remove ledger ob.bidder ob.bid hnd hob
    have hmem' : ∀ x ∈ rest, ledgerGet (ledgerRemove ledger ob.bidder) x.bidder
        = some x.bid := by
      intro x hx
      rw [ledgerGet_remove_ne _ (fun hc => hdist.1 x hx hc.symm)]
      exact hmem x (List.mem_cons_of_mem ob hx)
    have hrec := ih (ledgerRemove ledger ob.bidder) (removeBidder bidders ob.bidder)
      (nodupKeys_remove _ _ hnd) hmem' hdist.2
    simp [refundLosers, outSum]
    omega

/-- `try_consign` accounting: the sale asset received plus the prior escrow
equals the requested sale transfers plus the new escrow; the invariants are
preserved; no bid-asset transfer is requested and the ledger is untouched. -/
theorem consign_step (env : Env) (owner amount : Nat) (h : Inv env) :
    Inv (tryConsign env owner amount).env ∧
    amount + env.state.currently_consigned =
      outSum .sale (tryConsign env owner amount).msgs +
        (tryConsign env owner amount).env.state.currently_consigned ∧
    outSum .bid (tryConsign env owner amount).msgs = 0 ∧
    (tryConsign env owner amount).env.ledger = env.ledger := by
  obtain ⟨hnb, hnk, hle, hfull, horph⟩ := h
  simp only [tryConsign]
  split_ifs with h1 h2 h3 h4 h5
  · exact ⟨⟨hnb, hnk, hle, hfull, horph⟩, by simp [outSum], by simp [outSum], rfl⟩
  · exact ⟨⟨hnb, hnk, hle, hfull, horph⟩, by simp [outSum], by simp [outSum], rfl⟩
  · exact ⟨⟨hnb, hnk, hle, hfull, horph⟩, by simp [outSum], by simp [outSum], rfl⟩
  · refine ⟨⟨hnb, hnk, ?_, ?_, horph⟩, ?_, by simp [outSum], rfl⟩
    · dsimp only
      omega
    · dsimp only
      intro hc
      rw [Bool.not_eq_true] at h3
      exact absurd hc (by simp [h3])
    · dsimp only
      simp [outSum]
      omega
  · refine ⟨⟨hnb, hnk, ?_, ?_, horph⟩, ?_, by simp [outSum], rfl⟩
    · dsimp only
      exact le_refl _
    · dsimp only
      exact fun _ _ => rfl
    · dsimp only
      simp [outSum]
      omega
  · refine ⟨⟨hnb, hnk, ?_, ?_, horph⟩, ?_, by simp [outSum], rfl⟩
    · dsimp only
      exact le_refl _
    · dsimp only
      exact fun _ _ => rfl
    · dsimp only
      simp [outSum]
      omega

/-- `try_bid` accounting: the bid asset received plus the prior escrowed
sum equals the requested bid transfers plus the new escrowed sum; the
invariants are preserved; no sale-asset transfer is requested and the rest
of the state is untouched. -/
theorem bid_step (env : Env) (bidder amount time : Nat) (h : Inv env) :
    Inv (tryBid env bidder amount time).env ∧
    amount + ledgerSum env.ledger =
      outSum .bid (tryBid env bidder amount time).msgs +
        ledgerSum (tryBid env bidder amount time).env.ledger ∧
    outSum .sale (tryBid env bidder amount time).msgs = 0 ∧
    (tryBid env bidder amount time).env.state.currently_consigned
      = env.state.currently_consigned ∧
    (tryBid env bidder amount time).env.state.tokens_consigned
      = env.state.tokens_consigned ∧
    (tryBid env bidder amount time).env.state.is_completed = env.state.is_completed ∧
    (tryBid env bidder amount time).env.state.sell_amount = env.state.sell_amount := by
  obtain ⟨hnb, hnk, hle, hfull, horph⟩ := h
  simp only [tryBid]
  split_ifs with h1 h2 h3 h4
  · exact ⟨⟨hnb, hnk, hle, hfull, horph⟩, by simp [outSum], by simp [outSum],
      rfl, rfl, rfl, rfl⟩
  · exact ⟨⟨hnb, hnk, hle, hfull, horph⟩, by simp [outSum, h2], by simp [outSum],
      rfl, rfl, rfl, rfl⟩
  · exact ⟨⟨hnb, hnk, hle, hfull, horph⟩, by simp [outSum], by simp [outSum],
      rfl, rfl, rfl, rfl⟩
  · rcases hg : ledgerGet env.ledger bidder with _ | old <;> dsimp only
    · -- in the bidder set but no record: store fresh
      refine ⟨⟨hnb, nodupKeys_set _ _ _ hnk, hle, hfull, ?_⟩, ?_, by simp [outSum],
        rfl, rfl, rfl, rfl⟩
      · intro k bd hk
        by_cases hkb : k = bidder
        · rw [hkb]
          exact h4
        · exact horph k bd ((ledgerGet_set_ne _ _ hkb) ▸ hk)
      · rw [ledgerSum_set_fresh _ _ _ hg]
        simp [outSum]
    · split_ifs with h5
      · exact ⟨⟨hnb, hnk, hle, hfull, horph⟩, by simp [outSum], by simp [outSum],
          rfl, rfl, rfl, rfl⟩
      · -- replace the old bid, refund it
        refine ⟨⟨hnb, nodupKeys_set _ _ _ hnk, hle, hfull, ?_⟩, ?_, by simp [outSum],
          rfl, rfl, rfl, rfl⟩
        · intro k bd hk
          by_cases hkb : k = bidder
          · rw [hkb]
            exact h4
          · exact horph k bd ((ledgerGet_set_ne _ _ hkb) ▸ hk)
        · have hsum := ledgerSum_set env.ledger bidder ⟨amount, time⟩ old hnk hg
          dsimp only at hsum
          simp [outSum]
          omega
  · -- not in the bidder set: insert and store fresh
    have hg : ledgerGet env.ledger bidder = none := by
      rcases hgc : ledgerGet env.ledger bidder with _ | bd
      · rfl
      · exact absurd (horph bidder bd hgc) h4
    have hins : insertBidder env.state.bidders bidder = bidder :: env.state.bidders := by
      rw [insertBidder, if_neg h4]
    refine ⟨⟨?_, nodupKeys_set _ _ _ hnk, hle, hfull, ?_⟩, ?_, by simp [outSum],
      rfl, rfl, rfl, rfl⟩
    · rw [hins]
      exact List.nodup_cons.mpr ⟨h4, hnb⟩
    · intro k bd hk
      rw [hins]
      by_cases hkb : k = bidder
      · rw [hkb]
        exact List.mem_cons_self _ _
      · exact List.mem_cons_of_mem _ (horph k bd ((ledgerGet_set_ne _ _ hkb) ▸ hk))
    · rw [ledgerSum_set_fresh _ _ _ hg]
      simp [outSum]

/-- `try_retract` accounting. -/
theorem retract_step (env : Env) (bidder : Nat) (h : Inv env) :
    Inv (tryRetract env bidder).env ∧
    ledgerSum env.ledger =
      outSum .bid (tryRetract env bidder).msgs +
        ledgerSum (tryRetract env bidder).env.ledger ∧
    outSum .sale (tryRetract env bidder).msgs = 0 ∧
    (tryRetract env bidder).env.state.currently_consigned
      = env.state.currently_consigned ∧
    (tryRetract env bidder).env.state.tokens_consigned
      = env.state.tokens_consigned ∧
    (tryRetract env bidder).env.state.is_completed = env.state.is_completed ∧
    (tryRetract env bidder).env.state.sell_amount = env.state.sell_amount := by
  obtain ⟨hnb, hnk, hle, hfull, horph⟩ := h
  simp only [tryRetract]
  split_ifs with h1
  · rcases hg : ledgerGet env.ledger bidder with _ | old
    · exact ⟨⟨hnb, hnk, hle, hfull, horph⟩, by simp [outSum], by simp [outSum],
        rfl, rfl, rfl, rfl⟩
    · refine ⟨⟨nodup_removeBidder _ _ hnb, nodupKeys_remove _ _ hnk, hle, hfull, ?_⟩,
        ?_, by simp [outSum], rfl, rfl, rfl, rfl⟩
      · intro k bd hk
        by_cases hkb : k = bidder
        · rw [hkb] at hk
          rw [ledgerGet_remove_self] at hk
          cases hk
        · rw [ledgerGet_remove_ne _ hkb] at hk
          exact (mem_removeBidder _ _ _).mpr ⟨horph k bd hk, hkb⟩
      · have := ledgerSum_remove env.ledger bidder old hnk hg
        simp only [outSum]
        simp
        omega
  · exact ⟨⟨hnb, hnk, hle, hfull, horph⟩, by simp [outSum], by simp [outSum],
      rfl, rfl, rfl, rfl⟩

end Auction
namespace Auction

/-! ### Conservation (C1): the settlement pass -/

theorem outSum_sale_refunds (l : List OwnedBid) :
    outSum .sale (l.map fun ob => ⟨.bid, ob.bidder, ob.bid.amount⟩) = 0 := by
  induction l with
  | nil => rfl
  | cons ob rest ih => simp [outSum, ih]

/-- `try_finalize` settlement accounting: the sale escrow is fully paid out
(to the winner or back to the seller), the bid escrow drops by exactly the
amounts requested in bid-asset transfers, and the invariants are
preserved. -/
theorem settle_step (env : Env) (ra : Bool) (h : Inv env) :
    Inv (settle env ra).env ∧
    env.state.currently_consigned =
      outSum .sale (settle env ra).msgs +
        (settle env ra).env.state.currently_consigned ∧
    ledgerSum env.ledger =
      outSum .bid (settle env ra).msgs + ledgerSum (settle env ra).env.ledger := by
  obtain ⟨hnb, hnk, hle, hfull, horph⟩ := h
  rcases settlePick_shape env with hp | ⟨ys, w, hys, hp⟩ | ⟨hnil, hp⟩
  · -- no winner-selection pass: every loaded bid is refunded
    have hmem : ∀ ob ∈ loadBids env.ledger env.state.bidders,
        ledgerGet env.ledger ob.bidder = some ob.bid := fun ob hob => (mem_loadBids hob).2
    have hpair := loadBids_pairwise env.ledger env.state.bidders hnb
    have hsum := refundLosers_sum (loadBids env.ledger env.state.bidders) env.ledger
      env.state.bidders hnk hmem hpair
    simp only [settle, hp]
    refine ⟨⟨?_, ?_, ?_, ?_, ?_⟩, ?_, ?_⟩
    · rw [settleAfterPick_bidders_none, refundLosers_bidders]
      exact nodup_foldl_removeBidder _ _ hnb
    · rw [settleAfterPick_ledger_none, refundLosers_ledger]
      exact nodupKeys_foldl_remove _ _ hnk
    · rw [settleAfterPick_cc]
      exact Nat.zero_le _
    · intro _ hc
      rw [settleAfterPick_is_completed] at hc
      simp at hc
    · intro k bd hk
      rw [settleAfterPick_ledger_none, refundLosers_ledger, ledgerGet_foldl_remove] at hk
      rw [settleAfterPick_bidders_none, refundLosers_bidders, mem_foldl_removeBidder]
      by_cases hkm : k ∈ (loadBids env.ledger env.state.bidders).map OwnedBid.bidder
      · rw [if_pos hkm] at hk
        cases hk
      · rw [if_neg hkm] at hk
        exact ⟨horph k bd hk, hkm⟩
    · rw [settleAfterPick_msgs_none, settleAfterPick_cc, refundLosers_msgs,
        outSum_append, outSum_sale_refunds]
      by_cases hc : 0 < env.state.currently_consigned
      · rw [if_pos hc]
        simp [outSum]
      · rw [if_neg hc]
        simp [outSum]
        omega
    · rw [settleAfterPick_msgs_none, settleAfterPick_ledger_none, outSum_append]
      have hzero : outSum .bid (if 0 < env.state.currently_consigned then
          [⟨.sale, env.state.seller, env.state.currently_consigned⟩] else []) = 0 := by
        split <;> simp [outSum]
      rw [hzero]
      omega
  · -- winner popped, remaining bids refunded
    have hdw : env.state.tokens_consigned = true ∧ env.state.is_completed = false := by
      by_contra hc
      have hnone : settlePick env = (loadBids env.ledger env.state.bidders, none) := by
        simp only [settlePick]
        rw [if_neg hc]
      rw [hp] at hnone
      simp at hnone
    have hwmem : w ∈ loadBids env.ledger env.state.bidders := by
      have hmw : w ∈ ys ++ [w] := List.mem_append.mpr (Or.inr (List.mem_cons_self w []))
      rw [← hys] at hmw
      exact (List.mergeSort_perm _ bidLE).mem_iff.mp hmw
    have hgw : ledgerGet env.ledger w.bidder = some w.bid := (mem_loadBids hwmem).2
    have hpairL := loadBids_pairwise env.ledger env.state.bidders hnb
    have hpairS : (ys ++ [w]).Pairwise (fun a b => a.bidder ≠ b.bidder) := by
      rw [← hys]
      exact (List.Perm.pairwise_iff (fun hxy => Ne.symm hxy)
        (List.mergeSort_perm _ bidLE)).mpr hpairL
    have hys_pair := List.pairwise_append.mp hpairS
    have hysmem : ∀ ob ∈ ys,
        ledgerGet (ledgerRemove env.ledger w.bidder) ob.bidder = some ob.bid := by
      intro ob hob
      have hne : ob.bidder ≠ w.bidder := hys_pair.2.2 ob hob w (List.mem_cons_self w [])
      rw [ledgerGet_remove_ne _ hne]
      have hmo : ob ∈ ys ++ [w] := List.mem_append.mpr (Or.inl hob)
      rw [← hys] at hmo
      exact (mem_loadBids ((List.mergeSort_perm _ bidLE).mem_iff.mp hmo)).2
    have hsum := refundLosers_sum ys (ledgerRemove env.ledger w.bidder)
      (removeBidder env.state.bidders w.bidder) (nodupKeys_remove _ _ hnk)
      hysmem hys_pair.1
    have hsplit := ledgerSum_remove env.ledger w.bidder w.bid hnk hgw
    have hccfull := hfull hdw.1 hdw.2
    simp only [settle, hp]
    refine ⟨⟨?_, ?_, ?_, ?_, ?_⟩, ?_, ?_⟩
    · rw [settleAfterPick_bidders_some, refundLosers_bidders]
      exact nodup_foldl_removeBidder _ _ (nodup_removeBidder _ _ hnb)
    · rw [settleAfterPick_ledger_some, refundLosers_ledger]
      exact nodupKeys_foldl_remove _ _ (nodupKeys_remove _ _ hnk)
    · rw [settleAfterPick_cc]
      exact Nat.zero_le _
    · intro _ hc
      rw [settleAfterPick_is_completed] at hc
      simp at hc
    · intro k bd hk
      rw [settleAfterPick_ledger_some, refundLosers_ledger, ledgerGet_foldl_remove] at hk
      rw [settleAfterPick_bidders_some, refundLosers_bidders, mem_foldl_removeBidder,
        mem_removeBidder]
      by_cases hkm : k ∈ ys.map OwnedBid.bidder
      · rw [if_pos hkm] at hk
        cases hk
      · rw [if_neg hkm] at hk
        by_cases hkw : k = w.bidder
        · rw [hkw, ledgerGet_remove_self] at hk
          cases hk
        · rw [ledgerGet_remove_ne _ hkw] at hk
          exact ⟨⟨horph k bd hk, hkw⟩, hkm⟩
    · rw [settleAfterPick_msgs_some, settleAfterPick_cc, refundLosers_msgs]
      simp only [outSum, outSum_sale_refunds]
      simp
      omega
    · rw [settleAfterPick_msgs_some, settleAfterPick_ledger_some]
      simp only [outSum]
      simp
      omega
  · -- nothing was loaded: only the consignment refund can happen
    simp only [settle, hp]
    refine ⟨⟨?_, ?_, ?_, ?_, ?_⟩, ?_, ?_⟩
    · rw [settleAfterPick_bidders_none, refundLosers_bidders, List.foldl_nil]
      exact hnb
    · rw [settleAfterPick_ledger_none, refundLosers_ledger, List.foldl_nil]
      exact hnk
    · rw [settleAfterPick_cc]
      exact Nat.zero_le _
    · intro _ hc
      rw [settleAfterPick_is_completed] at hc
      simp at hc
    · intro k bd hk
      rw [settleAfterPick_ledger_none, refundLosers_ledger, List.foldl_nil] at hk
      rw [settleAfterPick_bidders_none, refundLosers_bidders, List.foldl_nil]
      exact horph k bd hk
    · rw [settleAfterPick_msgs_none, settleAfterPick_cc, refundLosers_msgs]
      simp only [List.map_nil]
      by_cases hc : 0 < env.state.currently_consigned
      · rw [if_pos hc]
        simp [outSum]
      · rw [if_neg hc]
        simp [outSum]
        omega
    · rw [settleAfterPick_msgs_none, settleAfterPick_ledger_none, refundLosers_msgs,
        refundLosers_ledger, List.foldl_nil]
      simp only [List.map_nil, List.nil_append]
      have hzero : outSum .bid (if 0 < env.state.currently_consigned then
          [⟨.sale, env.state.seller, env.state.currently_consigned⟩] else []) = 0 := by
        split <;> simp [outSum]
      rw [hzero]
      omega

theorem viewBid_step (env : Env) (bidder : Nat) :
    (tryViewBid env bidder).env = env ∧ (tryViewBid env bidder).msgs = [] := by
  simp only [tryViewBid]
  split_ifs with h1
  · rcases hg : ledgerGet env.ledger bidder with _ | bd <;> exact ⟨rfl, rfl⟩
  · exact ⟨rfl, rfl⟩

/-- One step preserves the invariants and conserves both assets:
units received plus prior escrow equal units requested out plus new
escrow. -/
theorem step_conserve (env : Env) (op : Op) (h : Inv env) :
    Inv (step env op).env ∧
    saleInOp op + env.state.currently_consigned =
      outSum .sale (step env op).msgs +
        (step env op).env.state.currently_consigned ∧
    bidInOp op + ledgerSum env.ledger =
      outSum .bid (step env op).msgs + ledgerSum (step env op).env.ledger := by
  cases op with
  | consign owner amount =>
    obtain ⟨hi, hs, hb, hl⟩ := consign_step env owner amount h
    refine ⟨hi, ?_, ?_⟩
    · simpa [step, saleInOp] using hs
    · show 0 + ledgerSum env.ledger = _
      rw [show step env (.consign owner amount) = tryConsign env owner amount from rfl,
        hb, hl]
  | placeBid bidder amount time =>
    obtain ⟨hi, hbid, hsale, hcc, _, _, _⟩ := bid_step env bidder amount time h
    refine ⟨hi, ?_, ?_⟩
    · show 0 + env.state.currently_consigned = _
      rw [show step env (.placeBid bidder amount time) = tryBid env bidder amount time
        from rfl, hsale, hcc]
    · simpa [step, bidInOp] using hbid
  | retractBid bidder =>
    obtain ⟨hi, hbid, hsale, hcc, _, _, _⟩ := retract_step env bidder h
    refine ⟨hi, ?_, ?_⟩
    · show 0 + env.state.currently_consigned = _
      rw [show step env (.retractBid bidder) = tryRetract env bidder from rfl, hsale, hcc]
    · simpa [step, bidInOp] using hbid
  | finalize sender oib =>
    rcases tryFinalize_cases env sender oib false with heq | ⟨henv, hmsgs, _⟩
    · obtain ⟨hi, hs, hb⟩ := settle_step env false h
      rw [show step env (.finalize sender oib) = tryFinalize env sender oib false
        from rfl, heq]
      exact ⟨hi, by simpa [saleInOp] using hs, by simpa [bidInOp] using hb⟩
    · rw [show step env (.finalize sender oib) = tryFinalize env sender oib false
        from rfl, henv, hmsgs]
      exact ⟨h, by simp [saleInOp, outSum, henv, hmsgs], by simp [bidInOp, outSum]⟩
  | returnAll sender =>
    rcases tryFinalize_cases env sender false true with heq | ⟨henv, hmsgs, _⟩
    · obtain ⟨hi, hs, hb⟩ := settle_step env true h
      rw [show step env (.returnAll sender) = tryFinalize env sender false true
        from rfl, heq]
      exact ⟨hi, by simpa [saleInOp] using hs, by simpa [bidInOp] using hb⟩
    · rw [show step env (.returnAll sender) = tryFinalize env sender false true
        from rfl, henv, hmsgs]
      exact ⟨h, by simp [saleInOp, outSum, henv, hmsgs], by simp [bidInOp, outSum]⟩
  | viewBid bidder =>
    obtain ⟨henv, hmsgs⟩ := viewBid_step env bidder
    rw [show step env (.viewBid bidder) = tryViewBid env bidder from rfl, henv, hmsgs]
    exact ⟨h, by simp [saleInOp, outSum], by simp [bidInOp, outSum]⟩

theorem runOps_conserve (ops : List Op) (env : Env) (h : Inv env) :
    saleIn ops + env.state.currently_consigned =
      outSum .sale (runOps env ops).2 + (runOps env ops).1.state.currently_consigned ∧
    bidIn ops + ledgerSum env.ledger =
      outSum .bid (runOps env ops).2 + ledgerSum (runOps env ops).1.ledger := by
  induction ops generalizing env with
  | nil => simp [runOps, saleIn, bidIn, outSum]
  | cons op rest ih =>
    obtain ⟨hi, hs, hb⟩ := step_conserve env op h
    obtain ⟨ihs, ihb⟩ := ih (step env op).env hi
    simp only [runOps, saleIn, bidIn, outSum_append]
    constructor <;> omega

/-- **C1**: starting from the created state, over any operation sequence,
the sale-asset units ever received via Consign equal the sale-asset units
requested in transfers (excess refunds, reject refunds, close-time returns
to the seller, and the winner payout) plus the final `currently_consigned`;
analogously, the bid-asset units ever received via PlaceBid equal the
bid-asset units requested in transfers (bid refunds and the winner's
payment to the seller) plus the sum of the bids still escrowed. -/
theorem C1_conservation (seller sell_amount minimum_bid : Nat) (d : Option String)
    (ops : List Op) :
    saleIn ops =
      outSum .sale (runOps (initEnv seller sell_amount minimum_bid d) ops).2 +
        (runOps (initEnv seller sell_amount minimum_bid d) ops).1.state.currently_consigned ∧
    bidIn ops =
      outSum .bid (runOps (initEnv seller sell_amount minimum_bid d) ops).2 +
        ledgerSum (runOps (initEnv seller sell_amount minimum_bid d) ops).1.ledger := by
  obtain ⟨h1, h2⟩ := runOps_conserve ops (initEnv seller sell_amount minimum_bid d)
    (Inv_init seller sell_amount minimum_bid d)
  constructor
  · simpa [initEnv, initState] using h1
  · simpa [initEnv, initState, ledgerSum] using h2

end Auction
